import Mathlib

/-!
Verification of the WSDL pruning tool (`wd-wsdlint.py`).

The development shallowly embeds the tool's core: the qualified-name
resolution helpers, the message/schema reference collection, the
worklist-based schema reachability resolver (`reachable_schema_items`),
and the structural pruning pipeline (`prune_wsdl`) including the policy
attachment step.  XML trees are embedded as structured records: each
record field models exactly the attributes and children the Python code
reads or mutates; subtrees the code never inspects are carried as opaque
payload strings.  Every function is a computable translation of the
corresponding Python function, preserving evaluation order, mutation
order, and failure (exception) points.
-/

set_option autoImplicit false

namespace WdWsdlint

universe u v

variable {α : Type u} {β : Type v}

/-! ### Generic list helpers

Small executable helpers mirroring the Python list/dict idioms used by
the tool, with their own lemmas (kept version-independent on purpose).
-/

/-- First index of an element satisfying `p` (Python `for`-loop with
early `return` over a `findall` result). -/
def firstIdxWhere (p : α → Bool) : List α → Option Nat
  | [] => none
  | x :: xs => if p x then some 0 else (firstIdxWhere p xs).map (· + 1)

/-- Element at an index (`list[i]`), `none` when out of range. -/
def nth? : List α → Nat → Option α
  | [], _ => none
  | x :: _, 0 => some x
  | _ :: xs, n + 1 => nth? xs n

/-- Replace the element at an index, identity when out of range.  Models
in-place mutation of one child of the tree. -/
def setAt : List α → Nat → α → List α
  | [], _, _ => []
  | _ :: xs, 0, y => y :: xs
  | x :: xs, n + 1, y => x :: setAt xs n y

/-- Python `list.insert(i, a)` / lxml `Element.insert(i, a)`: insert at
position `i`, clamping to append when `i` exceeds the length. -/
def insertClamp : Nat → α → List α → List α
  | _, a, [] => [a]
  | 0, a, l => a :: l
  | n + 1, a, x :: xs => x :: insertClamp n a xs

/-- Remove the first element satisfying `p`
(`parent.remove(parent.find(tag))` guarded by a `find` check). -/
def erasePFirst (p : α → Bool) : List α → List α
  | [] => []
  | x :: xs => if p x then xs else x :: erasePFirst p xs

/-- Map a fallible function over a list, failing on the first `none`
(a Python comprehension whose body may raise). -/
def mapOpt (f : α → Option β) : List α → Option (List β)
  | [] => some []
  | x :: xs =>
    match f x, mapOpt f xs with
    | some y, some ys => some (y :: ys)
    | _, _ => none

/-- Concatenation of `f` over a list (nested `findall` loops collecting
into one accumulator, in document order). -/
def concatMap (f : α → List β) : List α → List β
  | [] => []
  | x :: xs => f x ++ concatMap f xs

theorem mem_concatMap {f : α → List β} {l : List α} {b : β} :
    b ∈ concatMap f l ↔ ∃ a ∈ l, b ∈ f a := by
  induction l with
  | nil => simp [concatMap]
  | cons x xs ih =>
    simp only [concatMap, List.mem_append, ih, List.mem_cons]
    constructor
    · rintro (h | ⟨a, ha, hb⟩)
      · exact ⟨x, Or.inl rfl, h⟩
      · exact ⟨a, Or.inr ha, hb⟩
    · rintro ⟨a, (rfl | ha), hb⟩
      · exact Or.inl hb
      · exact Or.inr ⟨a, ha, hb⟩

theorem concatMap_append (f : α → List β) (l₁ l₂ : List α) :
    concatMap f (l₁ ++ l₂) = concatMap f l₁ ++ concatMap f l₂ := by
  induction l₁ with
  | nil => rfl
  | cons x xs ih => simp [concatMap, ih]

theorem concatMap_sublist {l₁ l₂ : List α} (f : α → List β)
    (h : l₁.Sublist l₂) : (concatMap f l₁).Sublist (concatMap f l₂) := by
  induction h with
  | slnil => exact List.Sublist.refl _
  | cons a _ ih => exact ih.trans (List.sublist_append_right _ _)
  | cons₂ a _ ih => exact List.Sublist.append (List.Sublist.refl _) ih

theorem mem_mapOpt {f : α → Option β} {l : List α} {out : List β}
    (h : mapOpt f l = some out) {a : α} (ha : a ∈ l) :
    ∃ b, f a = some b ∧ b ∈ out := by
  induction l generalizing out with
  | nil => cases ha
  | cons x xs ih =>
    simp only [mapOpt] at h
    cases hfx : f x with
    | none => rw [hfx] at h; cases h
    | some y =>
      rw [hfx] at h
      cases hrest : mapOpt f xs with
      | none => rw [hrest] at h; cases h
      | some ys =>
        rw [hrest] at h
        cases h
        rcases List.mem_cons.mp ha with rfl | ha'
        · exact ⟨y, hfx, List.mem_cons_self _ _⟩
        · obtain ⟨b, hb1, hb2⟩ := ih hrest ha'
          exact ⟨b, hb1, List.mem_cons_of_mem _ hb2⟩

theorem firstIdxWhere_nth {p : α → Bool} {l : List α} {i : Nat}
    (h : firstIdxWhere p l = some i) :
    ∃ x, nth? l i = some x ∧ p x = true := by
  induction l generalizing i with
  | nil => cases h
  | cons x xs ih =>
    simp only [firstIdxWhere] at h
    by_cases hp : p x
    · simp only [hp, if_pos] at h
      cases h
      exact ⟨x, rfl, hp⟩
    · simp only [hp, if_neg, Bool.false_eq_true, not_false_iff, Option.map_eq_some'] at h
      obtain ⟨j, hj, rfl⟩ := h
      obtain ⟨y, hy, hpy⟩ := ih hj
      exact ⟨y, hy, hpy⟩

theorem firstIdxWhere_lt_length {p : α → Bool} {l : List α} {i : Nat}
    (h : firstIdxWhere p l = some i) : i < l.length := by
  induction l generalizing i with
  | nil => cases h
  | cons x xs ih =>
    simp only [firstIdxWhere] at h
    by_cases hp : p x
    · simp only [hp, if_pos] at h
      cases h
      simp
    · simp only [hp, if_neg, Bool.false_eq_true, not_false_iff, Option.map_eq_some'] at h
      obtain ⟨j, hj, rfl⟩ := h
      simpa [Nat.succ_lt_succ_iff] using ih hj

theorem nth?_mem {l : List α} {i : Nat} {x : α} (h : nth? l i = some x) :
    x ∈ l := by
  induction l generalizing i with
  | nil => cases h
  | cons y ys ih =>
    cases i with
    | zero => cases h; exact List.mem_cons_self _ _
    | succ n => exact List.mem_cons_of_mem _ (ih h)

theorem nth?_setAt_self {l : List α} {i : Nat} {x : α} (h : i < l.length) :
    nth? (setAt l i x) i = some x := by
  induction l generalizing i with
  | nil => cases h
  | cons y ys ih =>
    cases i with
    | zero => rfl
    | succ n => exact ih (Nat.lt_of_succ_lt_succ h)

theorem setAt_self {l : List α} {i : Nat} {x : α} (h : nth? l i = some x) :
    setAt l i x = l := by
  induction l generalizing i with
  | nil => rfl
  | cons y ys ih =>
    cases i with
    | zero => cases h; rfl
    | succ n => simp [setAt, ih h]

theorem mem_setAt {l : List α} {i : Nat} {x y : α} (h : y ∈ setAt l i x) :
    y = x ∨ y ∈ l := by
  induction l generalizing i with
  | nil => cases h
  | cons z zs ih =>
    cases i with
    | zero =>
      rcases List.mem_cons.mp h with rfl | h'
      · exact Or.inl rfl
      · exact Or.inr (List.mem_cons_of_mem _ h')
    | succ n =>
      rcases List.mem_cons.mp h with rfl | h'
      · exact Or.inr (List.mem_cons_self _ _)
      · rcases ih h' with h'' | h''
        · exact Or.inl h''
        · exact Or.inr (List.mem_cons_of_mem _ h'')

theorem length_setAt (l : List α) (i : Nat) (x : α) :
    (setAt l i x).length = l.length := by
  induction l generalizing i with
  | nil => rfl
  | cons y ys ih =>
    cases i with
    | zero => rfl
    | succ n => simp [setAt, ih]

theorem mem_insertClamp {i : Nat} {a b : α} {l : List α} :
    b ∈ insertClamp i a l ↔ b = a ∨ b ∈ l := by
  induction l generalizing i with
  | nil => simp [insertClamp]
  | cons x xs ih =>
    cases i with
    | zero => simp [insertClamp]
    | succ n =>
      simp only [insertClamp, List.mem_cons, ih, List.mem_cons]
      tauto

theorem mem_erasePFirst {p : α → Bool} {l : List α} {x : α}
    (h : x ∈ erasePFirst p l) : x ∈ l := by
  induction l with
  | nil => cases h
  | cons y ys ih =>
    simp only [erasePFirst] at h
    by_cases hp : p y
    · simp only [hp, if_pos] at h
      exact List.mem_cons_of_mem _ h
    · simp only [hp, if_neg, Bool.false_eq_true, not_false_iff] at h
      rcases List.mem_cons.mp h with rfl | h'
      · exact List.mem_cons_self _ _
      · exact List.mem_cons_of_mem _ (ih h')

theorem mem_erasePFirst_of_not {p : α → Bool} {l : List α} {x : α}
    (hx : x ∈ l) (hpx : p x = false) : x ∈ erasePFirst p l := by
  induction l with
  | nil => cases hx
  | cons y ys ih =>
    simp only [erasePFirst]
    by_cases hp : p y
    · simp only [hp, if_pos]
      rcases List.mem_cons.mp hx with rfl | h'
      · rw [hp] at hpx; cases hpx
      · exact h'
    · simp only [hp, if_neg, Bool.false_eq_true, not_false_iff]
      rcases List.mem_cons.mp hx with rfl | h'
      · exact List.mem_cons_self _ _
      · exact List.mem_cons_of_mem _ (ih h')

/-! ### Qualified names

`resolve_qname` splits `prefix:local` at the first `:` (Python
`split(':', 1)`) and resolves the prefix against the root element's
namespace map (`root.nsmap.get(prefix)`, which may yield `None`).
A value without a `:` makes `split(':', 1)` produce a single element,
so the two-element unpacking raises `ValueError`; we model that as
`none`. -/

/-- Split a character list at the first `:`; `none` when there is no
colon. -/
def splitColonAux : List Char → Option (List Char × List Char)
  | [] => none
  | c :: cs =>
    if c = ':' then some ([], cs)
    else
      match splitColonAux cs with
      | none => none
      | some (p, l) => some (c :: p, l)

/-- Python `s.split(':', 1)` restricted to the two-element case:
`some (prefix, local)` when `s` contains a colon, `none` otherwise
(where the Python unpacking `prefix, local = ...` would raise). -/
def splitQn (s : String) : Option (String × String) :=
  (splitColonAux s.toList).map (fun pl => (String.mk pl.1, String.mk pl.2))

theorem splitColonAux_eq_none {cs : List Char} :
    splitColonAux cs = none ↔ ':' ∉ cs := by
  induction cs with
  | nil => simp [splitColonAux]
  | cons c cs ih =>
    by_cases hc : c = ':'
    · subst hc
      simp [splitColonAux]
    · cases h : splitColonAux cs with
      | none =>
        have ih' := ih.mp h
        simp only [splitColonAux, if_neg hc, h, List.mem_cons]
        constructor
        · intro _ hmem
          rcases hmem with h1 | h1
          · exact hc h1.symm
          · exact ih' h1
        · intro _
          trivial
      | some pl =>
        obtain ⟨p, l⟩ := pl
        have ih' : ':' ∈ cs := by
          by_contra hn
          rw [ih.mpr hn] at h
          cases h
        simp only [splitColonAux, if_neg hc, h, List.mem_cons]
        constructor
        · intro hx
          cases hx
        · intro hx
          exact absurd (Or.inr ih') hx

/-- Namespace map lookup: Python `dict.get`, first binding wins (the
model keeps the prefix map as an association list). -/
def nsLookup (m : List (String × String)) (p : String) : Option String :=
  (m.find? (fun q => decide (q.1 = p))).map (·.2)

/-- A schema item key: `(namespace-URI or None, local name)` as produced
by `(qn.namespace, qn.localname)`. -/
abbrev Key := Option String × String

/-! ### Schema model and the reachability resolver

`reachable_schema_items` builds `by_name`, a map from
`(targetNamespace, name)` to the declaring nodes, over all
`wsdl:types/xsd:schema` fragments: per schema it first registers the
`xsd:element` children, then `xsd:complexType`, then `xsd:simpleType`.
It then runs a worklist loop: pop a qname from the end of the queue,
skip it if retained, otherwise retain it and push every `type`/`ref`/
`base` attribute value containing a colon found in the subtrees of its
declaring nodes. -/

/-- Kind of a top-level schema declaration. -/
inductive SKind where
  | el   -- xsd:element
  | ct   -- xsd:complexType
  | st   -- xsd:simpleType
deriving DecidableEq, Repr

/-- One top-level child of an `xsd:schema`: its kind, its `name`
attribute, and the raw values of every `type`, `ref` and `base`
attribute occurring in its subtree (the `node.xpath('.//@attr')` scan),
in scan order. -/
structure SchemaNode where
  kind : SKind
  name : Option String
  refs : List String
deriving DecidableEq, Repr

/-- One embedded `xsd:schema` fragment: its `targetNamespace`, its
top-level declarations in document order, and the number of
`xsd:import`/`xsd:include` children. -/
structure Schema where
  tns : Option String
  items : List SchemaNode
  imports : Nat
deriving DecidableEq, Repr

/-- Schema children in the order `by_name` registers them: all
`xsd:element`, then all `xsd:complexType`, then all `xsd:simpleType`. -/
def orderedItems (sch : Schema) : List SchemaNode :=
  sch.items.filter (fun n => decide (n.kind = SKind.el)) ++
  sch.items.filter (fun n => decide (n.kind = SKind.ct)) ++
  sch.items.filter (fun n => decide (n.kind = SKind.st))

/-- The `by_name` lookup: declaring nodes registered under key `k`,
in registration order. -/
def byNameS (schemas : List Schema) (k : Key) : List SchemaNode :=
  concatMap (fun sch =>
    if sch.tns = k.1 then
      (orderedItems sch).filter (fun n => decide (n.name = some k.2))
    else []) schemas

/-- Resolved cross-references of one declaring node (`add_refs`):
attribute values without a colon are skipped, the rest are resolved
against the root namespace map. -/
def refsResolved (nsmap : List (String × String)) (n : SchemaNode) :
    List Key :=
  n.refs.filterMap (fun s =>
    (splitQn s).map (fun pl => ((nsLookup nsmap pl.1 : Option String), pl.2)))

/-- All keys pushed when key `k` is marked retained. -/
def succsS (nsmap : List (String × String)) (schemas : List Schema)
    (k : Key) : List Key :=
  concatMap (refsResolved nsmap) (byNameS schemas k)

/-- Every key any node of the document can push (used to bound the
worklist). -/
def allRefsS (nsmap : List (String × String)) (schemas : List Schema) :
    List Key :=
  concatMap (fun sch => concatMap (refsResolved nsmap) (orderedItems sch))
    schemas

/-- The worklist loop of `reachable_schema_items`, with explicit fuel.
State: `keep` is the retained set (most recently marked first, `none`
duplicates never added), `queue` is the worklist with the next popped
key first (Python pops from the end of the list and appends there, i.e.
a stack).  One unfolding per loop iteration: pop, skip if retained,
otherwise mark then push the successors. -/
def loopAuxS (nsmap : List (String × String)) (schemas : List Schema) :
    Nat → List Key → List Key → List Key × List Key
  | 0, keep, queue => (keep, queue)
  | _ + 1, keep, [] => (keep, [])
  | f + 1, keep, k :: rest =>
    if k ∈ keep then loopAuxS nsmap schemas f keep rest
    else loopAuxS nsmap schemas f (k :: keep)
      ((succsS nsmap schemas k).reverse ++ rest)

/-- Fuel sufficient for the loop to drain its queue (proved below). -/
def fuelForS (nsmap : List (String × String)) (schemas : List Schema)
    (seeds : List Key) : Nat :=
  ((seeds ++ allRefsS nsmap schemas).dedup).length *
    ((allRefsS nsmap schemas).length + 1) + seeds.length

/-- The retained key set computed by `reachable_schema_items` from the
seed references.  `list(seed_qnames)` is popped from the end, so the
initial stack is the reversed seed list. -/
def reachableKeepS (nsmap : List (String × String)) (schemas : List Schema)
    (seeds : List Key) : List Key :=
  (loopAuxS nsmap schemas (fuelForS nsmap schemas seeds) [] seeds.reverse).1

/-! ### Reachability: termination and characterization -/

theorem concatMap_concatMap {γ : Type _} (f : β → List γ) (g : α → List β)
    (l : List α) :
    concatMap f (concatMap g l) = concatMap (fun a => concatMap f (g a)) l := by
  induction l with
  | nil => rfl
  | cons x xs ih => simp [concatMap, concatMap_append, ih]

theorem concatMap_sublist_of_forall {l : List α} {f g : α → List β}
    (h : ∀ a ∈ l, (f a).Sublist (g a)) :
    (concatMap f l).Sublist (concatMap g l) := by
  induction l with
  | nil => exact List.Sublist.refl _
  | cons x xs ih =>
    exact List.Sublist.append (h x (List.mem_cons_self _ _))
      (ih fun a ha => h a (List.mem_cons_of_mem _ ha))

theorem succsS_sublist (nsmap : List (String × String))
    (schemas : List Schema) (k : Key) :
    (succsS nsmap schemas k).Sublist (allRefsS nsmap schemas) := by
  unfold succsS byNameS allRefsS
  rw [concatMap_concatMap]
  apply concatMap_sublist_of_forall
  intro sch _
  by_cases h : sch.tns = k.1
  · rw [if_pos h]
    exact concatMap_sublist _ (List.filter_sublist _)
  · rw [if_neg h]
    exact List.nil_sublist _

theorem mem_succsS_mem_allRefsS {nsmap : List (String × String)}
    {schemas : List Schema} {k j : Key}
    (h : j ∈ succsS nsmap schemas k) : j ∈ allRefsS nsmap schemas :=
  (succsS_sublist nsmap schemas k).mem h

theorem succsS_length_le (nsmap : List (String × String))
    (schemas : List Schema) (k : Key) :
    (succsS nsmap schemas k).length ≤ (allRefsS nsmap schemas).length :=
  (succsS_sublist nsmap schemas k).length_le

theorem filter_imp_length_le {p q : α → Bool}
    (h : ∀ x, p x = true → q x = true) (l : List α) :
    (l.filter p).length ≤ (l.filter q).length := by
  induction l with
  | nil => exact Nat.le_refl _
  | cons x xs ih =>
    by_cases hp : p x
    · rw [List.filter_cons_of_pos hp, List.filter_cons_of_pos (h x hp)]
      exact Nat.succ_le_succ ih
    · rw [List.filter_cons_of_neg (by simpa using hp)]
      cases hq : q x
      · rw [List.filter_cons_of_neg (by simp [hq])]
        exact ih
      · rw [List.filter_cons_of_pos hq]
        exact Nat.le_succ_of_le ih

theorem length_filter_mark_lt {k : Key} {keep : List Key} :
    ∀ {U : List Key}, k ∈ U → k ∉ keep →
    (U.filter (fun x => decide (x ∉ k :: keep))).length <
      (U.filter (fun x => decide (x ∉ keep))).length := by
  intro U
  induction U with
  | nil => intro h; cases h
  | cons u us ih =>
    intro hkU hk
    have himp : ∀ x : Key, decide (x ∉ k :: keep) = true →
        decide (x ∉ keep) = true := by
      intro x hx
      simp only [decide_eq_true_eq] at hx ⊢
      intro hmem
      exact hx (List.mem_cons_of_mem _ hmem)
    by_cases huk : u = k
    · subst huk
      rw [List.filter_cons_of_neg (by simp), List.filter_cons_of_pos (by simpa using hk)]
      exact Nat.lt_succ_of_le (filter_imp_length_le himp us)
    · rcases List.mem_cons.mp hkU with h1 | h1
      · exact absurd h1.symm huk
      · have hucond : (decide (u ∉ k :: keep)) = (decide (u ∉ keep)) := by
          simp only [decide_eq_decide, List.mem_cons]
          constructor
          · intro hx hmem
            exact hx (Or.inr hmem)
          · intro hx hmem
            rcases hmem with h2 | h2
            · exact huk h2
            · exact hx h2
        cases hcond : decide (u ∉ keep) with
        | false =>
          rw [List.filter_cons_of_neg (by rw [hucond, hcond]; simp),
            List.filter_cons_of_neg (by rw [hcond]; simp)]
          exact ih h1 hk
        | true =>
          rw [List.filter_cons_of_pos (by rw [hucond, hcond]),
            List.filter_cons_of_pos (by rw [hcond])]
          exact Nat.succ_lt_succ (ih h1 hk)

/-- Termination of the worklist loop of `reachable_schema_items`:
with the bounding fuel the queue is fully drained.  The measure is
`|unmarked candidate keys| * (|all pushable refs| + 1) + |queue|`:
a skipped pop shrinks the queue, a marking pop retires one candidate
key while pushing at most `|all pushable refs|` new entries. -/
theorem loop_drains (nsmap : List (String × String)) (schemas : List Schema)
    (U : List Key) (hU : ∀ j ∈ allRefsS nsmap schemas, j ∈ U) :
    ∀ (f : Nat) (keep queue : List Key), (∀ j ∈ queue, j ∈ U) →
    (U.filter (fun x => decide (x ∉ keep))).length *
        ((allRefsS nsmap schemas).length + 1) + queue.length ≤ f →
    (loopAuxS nsmap schemas f keep queue).2 = [] := by
  intro f
  induction f with
  | zero =>
    intro keep queue _ hm
    have : queue.length = 0 := Nat.le_zero.mp (Nat.le_trans (Nat.le_add_left _ _) hm)
    rw [List.length_eq_zero.mp this]
    rfl
  | succ f ih =>
    intro keep queue hq hm
    match queue with
    | [] => rfl
    | k :: rest =>
      by_cases hk : k ∈ keep
      · rw [loopAuxS, if_pos hk]
        apply ih keep rest (fun j hj => hq j (List.mem_cons_of_mem _ hj))
        simp only [List.length_cons] at hm
        omega
      · rw [loopAuxS, if_neg hk]
        apply ih
        · intro j hj
          rcases List.mem_append.mp hj with h1 | h1
          · exact hU j (mem_succsS_mem_allRefsS (List.mem_reverse.mp h1))
          · exact hq j (List.mem_cons_of_mem _ h1)
        · have hkU : k ∈ U := hq k (List.mem_cons_self _ _)
          have h1 := @length_filter_mark_lt k keep U hkU hk
          have h2 : ((succsS nsmap schemas k).reverse).length ≤
              (allRefsS nsmap schemas).length := by
            rw [List.length_reverse]
            exact succsS_length_le nsmap schemas k
          set R := (allRefsS nsmap schemas).length with hR
          set A := (U.filter (fun x => decide (x ∉ keep))).length with hA
          set B := (U.filter (fun x => decide (x ∉ k :: keep))).length with hB
          have key : B * (R + 1) + (R + 1) ≤ A * (R + 1) := by
            have : (B + 1) * (R + 1) ≤ A * (R + 1) :=
              Nat.mul_le_mul_right _ h1
            calc B * (R + 1) + (R + 1) = (B + 1) * (R + 1) := by ring
              _ ≤ A * (R + 1) := this
          rw [List.length_append]
          simp only [List.length_cons] at hm
          omega

/-- Keys on the queue or already retained end up retained, provided the
loop drains its queue. -/
theorem loop_keep_sup (nsmap : List (String × String))
    (schemas : List Schema) :
    ∀ (f : Nat) (keep queue : List Key),
    (loopAuxS nsmap schemas f keep queue).2 = [] →
    ∀ x, (x ∈ keep ∨ x ∈ queue) → x ∈ (loopAuxS nsmap schemas f keep queue).1 := by
  intro f
  induction f with
  | zero =>
    intro keep queue hdrain x hx
    simp only [loopAuxS] at hdrain ⊢
    rcases hx with h | h
    · exact h
    · rw [hdrain] at h; cases h
  | succ f ih =>
    intro keep queue hdrain x hx
    match queue with
    | [] =>
      simp only [loopAuxS]
      rcases hx with h | h
      · exact h
      · cases h
    | k :: rest =>
      by_cases hk : k ∈ keep
      · rw [loopAuxS, if_pos hk] at hdrain ⊢
        apply ih keep rest hdrain
        rcases hx with h | h
        · exact Or.inl h
        · rcases List.mem_cons.mp h with rfl | h'
          · exact Or.inl hk
          · exact Or.inr h'
      · rw [loopAuxS, if_neg hk] at hdrain ⊢
        apply ih _ _ hdrain
        rcases hx with h | h
        · exact Or.inl (List.mem_cons_of_mem _ h)
        · rcases List.mem_cons.mp h with rfl | h'
          · exact Or.inl (List.mem_cons_self _ _)
          · exact Or.inr (List.mem_append.mpr (Or.inr h'))

/-- Keys reachable from the seed references through the (colon-guarded)
`type`/`ref`/`base` reference graph.  This is the specification-level
closure the worklist computes. -/
inductive ReachS (nsmap : List (String × String)) (schemas : List Schema)
    (seeds : List Key) : Key → Prop
  | seed {k : Key} : k ∈ seeds → ReachS nsmap schemas seeds k
  | step {k j : Key} : ReachS nsmap schemas seeds k →
      j ∈ succsS nsmap schemas k → ReachS nsmap schemas seeds j

theorem loop_sound (nsmap : List (String × String)) (schemas : List Schema)
    (seeds : List Key) :
    ∀ (f : Nat) (keep queue : List Key),
    (∀ x ∈ keep, ReachS nsmap schemas seeds x) →
    (∀ x ∈ queue, ReachS nsmap schemas seeds x) →
    ∀ x ∈ (loopAuxS nsmap schemas f keep queue).1,
      ReachS nsmap schemas seeds x := by
  intro f
  induction f with
  | zero =>
    intro keep queue hkeep _ x hx
    exact hkeep x hx
  | succ f ih =>
    intro keep queue hkeep hqueue x hx
    match queue with
    | [] => exact hkeep x hx
    | k :: rest =>
      by_cases hk : k ∈ keep
      · rw [loopAuxS, if_pos hk] at hx
        exact ih keep rest hkeep
          (fun y hy => hqueue y (List.mem_cons_of_mem _ hy)) x hx
      · rw [loopAuxS, if_neg hk] at hx
        have hkR : ReachS nsmap schemas seeds k :=
          hqueue k (List.mem_cons_self _ _)
        apply ih _ _ _ _ x hx
        · intro y hy
          rcases List.mem_cons.mp hy with rfl | h'
          · exact hkR
          · exact hkeep y h'
        · intro y hy
          rcases List.mem_append.mp hy with h1 | h1
          · exact ReachS.step hkR (List.mem_reverse.mp h1)
          · exact hqueue y (List.mem_cons_of_mem _ h1)

/-- If the loop drains and the invariant "successors of retained keys
are retained or queued" holds, the final retained set is closed under
successors. -/
theorem loop_closed (nsmap : List (String × String)) (schemas : List Schema) :
    ∀ (f : Nat) (keep queue : List Key),
    (loopAuxS nsmap schemas f keep queue).2 = [] →
    (∀ x ∈ keep, ∀ j ∈ succsS nsmap schemas x, j ∈ keep ∨ j ∈ queue) →
    ∀ x ∈ (loopAuxS nsmap schemas f keep queue).1,
    ∀ j ∈ succsS nsmap schemas x, j ∈ (loopAuxS nsmap schemas f keep queue).1 := by
  intro f
  induction f with
  | zero =>
    intro keep queue hdrain hinv x hx j hj
    simp only [loopAuxS] at hdrain hx ⊢
    rcases hinv x hx j hj with h | h
    · exact h
    · rw [hdrain] at h; cases h
  | succ f ih =>
    intro keep queue hdrain hinv x hx j hj
    match queue with
    | [] =>
      simp only [loopAuxS] at hx ⊢
      rcases hinv x hx j hj with h | h
      · exact h
      · cases h
    | k :: rest =>
      by_cases hk : k ∈ keep
      · rw [loopAuxS, if_pos hk] at hdrain hx ⊢
        refine ih keep rest hdrain ?_ x hx j hj
        intro y hy i hi
        rcases hinv y hy i hi with h | h
        · exact Or.inl h
        · rcases List.mem_cons.mp h with rfl | h'
          · exact Or.inl hk
          · exact Or.inr h'
      · rw [loopAuxS, if_neg hk] at hdrain hx ⊢
        refine ih _ _ hdrain ?_ x hx j hj
        intro y hy i hi
        rcases List.mem_cons.mp hy with rfl | h'
        · exact Or.inr (List.mem_append.mpr (Or.inl (List.mem_reverse.mpr hi)))
        · rcases hinv y h' i hi with h | h
          · exact Or.inl (List.mem_cons_of_mem _ h)
          · rcases List.mem_cons.mp h with rfl | h''
            · exact Or.inl (List.mem_cons_self _ _)
            · exact Or.inr (List.mem_append.mpr (Or.inr h''))

theorem reachableKeepS_drains (nsmap : List (String × String))
    (schemas : List Schema) (seeds : List Key) :
    (loopAuxS nsmap schemas (fuelForS nsmap schemas seeds) []
      seeds.reverse).2 = [] := by
  apply loop_drains nsmap schemas ((seeds ++ allRefsS nsmap schemas).dedup)
  · intro j hj
    exact List.mem_dedup.mpr (List.mem_append.mpr (Or.inr hj))
  · intro j hj
    exact List.mem_dedup.mpr
      (List.mem_append.mpr (Or.inl (List.mem_reverse.mp hj)))
  · unfold fuelForS
    have h1 : (((seeds ++ allRefsS nsmap schemas).dedup).filter
        (fun x => decide (x ∉ ([] : List Key)))).length =
        ((seeds ++ allRefsS nsmap schemas).dedup).length := by
      congr 1
      apply List.filter_eq_self.mpr
      intro a _
      simp
    rw [h1, List.length_reverse]

/-- The worklist result is exactly the reachability closure of the
seeds. -/
theorem mem_reachableKeepS {nsmap : List (String × String)}
    {schemas : List Schema} {seeds : List Key} {k : Key} :
    k ∈ reachableKeepS nsmap schemas seeds ↔
      ReachS nsmap schemas seeds k := by
  constructor
  · intro h
    refine loop_sound nsmap schemas seeds _ [] seeds.reverse ?_ ?_ k h
    · intro x hx; cases hx
    · intro x hx
      exact ReachS.seed (List.mem_reverse.mp hx)
  · intro h
    induction h with
    | seed hs =>
      exact loop_keep_sup nsmap schemas _ [] seeds.reverse
        (reachableKeepS_drains nsmap schemas seeds) _
        (Or.inr (List.mem_reverse.mpr hs))
    | step _ hsucc ih =>
      refine loop_closed nsmap schemas _ [] seeds.reverse
        (reachableKeepS_drains nsmap schemas seeds) ?_ _ ih _ hsucc
      intro x hx
      cases hx

theorem loop_nodup (nsmap : List (String × String)) (schemas : List Schema) :
    ∀ (f : Nat) (keep queue : List Key), keep.Nodup →
    (loopAuxS nsmap schemas f keep queue).1.Nodup := by
  intro f
  induction f with
  | zero => intro keep queue h; exact h
  | succ f ih =>
    intro keep queue h
    match queue with
    | [] => exact h
    | k :: rest =>
      by_cases hk : k ∈ keep
      · rw [loopAuxS, if_pos hk]
        exact ih keep rest h
      · rw [loopAuxS, if_neg hk]
        exact ih _ _ (List.nodup_cons.mpr ⟨hk, h⟩)

/-- Reachability is monotone in the seed list. -/
theorem ReachS_mono {nsmap : List (String × String)} {schemas : List Schema}
    {seeds seeds' : List Key} (hs : ∀ k ∈ seeds, k ∈ seeds') {k : Key}
    (h : ReachS nsmap schemas seeds k) : ReachS nsmap schemas seeds' k := by
  induction h with
  | seed h0 => exact ReachS.seed (hs _ h0)
  | step _ hsucc ih => exact ReachS.step ih hsucc

/-! ### WSDL document model

Each structure models exactly what the Python code reads of the
corresponding element.  Lists are in document order. -/

/-- A `wsdl:part`: its `element` and `type` attributes. -/
structure Part where
  element : Option String
  typ : Option String
deriving DecidableEq, Repr

/-- A `wsdl:message`: `name` attribute and `wsdl:part` children. -/
structure Message where
  name : Option String
  parts : List Part
deriving DecidableEq, Repr

/-- A `wsdl:operation` of a portType: its `name`, the `message`
attribute of its first `wsdl:input` child (`none` when the child or the
attribute is absent), likewise for `wsdl:output`, and the `message`
attributes of its `wsdl:fault` children in order. -/
structure Operation where
  name : Option String
  input : Option String
  output : Option String
  faults : List (Option String)
deriving DecidableEq, Repr

/-- A `wsdl:portType`. -/
structure PortType where
  name : Option String
  ops : List Operation
deriving DecidableEq, Repr

/-- One direct child of a `wsdl:binding`, as far as the code can
distinguish them: a `soapbind:binding` marker, a `wsp:UsingPolicy` or
`wsp:Policy` node (payload string models the subtree content), a
`wsdl:operation` with its `name`, or anything else. -/
inductive BChild where
  | soapBinding
  | usingPolicy (c : String)
  | policy (c : String)
  | operation (name : Option String)
  | other (c : String)
deriving DecidableEq, Repr

/-- A `wsdl:binding`: `name` and `type` attributes and the ordered
child list. -/
structure Binding where
  name : Option String
  typ : Option String
  children : List BChild
deriving DecidableEq, Repr

/-- A `wsdl:port`: its `binding` attribute. -/
structure Port where
  binding : Option String
deriving DecidableEq, Repr

/-- A `wsdl:service`: `name` attribute and `wsdl:port` children. -/
structure Service where
  name : Option String
  ports : List Port
deriving DecidableEq, Repr

/-- The externally supplied policy fragment: the payloads of the
`wsp:UsingPolicy` and `wsp:Policy` direct children of its root, in
document order (`findall` on the fragment root). -/
structure PolicyDoc where
  ups : List String
  pols : List String
deriving DecidableEq, Repr

/-- The parsed WSDL document, with the top-level child groups the code
addresses via `findall`, the root's namespace-prefix map, and the
number of root-level `wsp:UsingPolicy`/`wsp:Policy` children (only ever
counted or wholesale-removed by `prune_existing_policy`). -/
structure Doc where
  nsmap : List (String × String)
  services : List Service
  bindings : List Binding
  portTypes : List PortType
  messages : List Message
  schemas : List Schema
  rootUP : Nat
  rootPol : Nat
deriving DecidableEq, Repr

/-- Failure points of the run, one per `raise` site or uncaught Python
exception (`ValueError`/`AttributeError`/`IndexError`). -/
inductive Err where
  | serviceNotFound      -- find_service: no wsdl:service with the name
  | noPort               -- "No wsdl:port found in service."
  | portBindingMissing   -- port has no binding attribute (AttributeError)
  | portBindingNoColon   -- port binding attribute has no colon (ValueError)
  | bindingNotFound      -- "Binding not found for the service port."
  | bindingTypeMissing   -- binding has no type attribute (AttributeError)
  | bindingTypeNoColon   -- binding type attribute has no colon (ValueError)
  | portTypeNotFound     -- "PortType not found for binding."
  | messageRefNoColon    -- find_messages: message qname without colon (IndexError)
  | partRefNoColon       -- collect_schema_qnames: part ref without colon (ValueError)
  | policyNoUsingPolicy  -- attach_policy: fragment has no wsp:UsingPolicy (IndexError)
  | policyNoPolicy       -- attach_policy: fragment has no wsp:Policy (IndexError)
  | servicePortNoColon   -- prune_service_ports: port binding without colon (IndexError)
deriving DecidableEq, Repr

/-- The failures that occur during target resolution, before any
mutation of the tree. -/
def Err.isLookup : Err → Bool
  | .serviceNotFound | .noPort | .portBindingMissing | .portBindingNoColon
  | .bindingNotFound | .bindingTypeMissing | .bindingTypeNoColon
  | .portTypeNotFound => true
  | _ => false

/-! ### Pipeline stages -/

/-- Python truthiness of an optional string attribute
(`if child.get(attr):`): present and non-empty. -/
def truthy : Option String → List String
  | some v => if v = "" then [] else [v]
  | none => []

/-- The message qnames one operation carries: first-input, first-output
then faults, skipping absent or empty attributes
(`collect_messages_from_porttype`, inner loops). -/
def opMsgRefs (op : Operation) : List String :=
  truthy op.input ++ truthy op.output ++
    op.faults.filterMap (fun f =>
      match f with
      | some m => if m = "" then none else some m
      | none => none)

/-- All message qnames referenced by the (already pruned) portType
(`collect_messages_from_porttype`). -/
def collectMessagesFromPorttype (pt : PortType) : List String :=
  concatMap opMsgRefs pt.ops

/-- Local parts of the collected message qnames
(`set(q.split(':',1)[1] for q in message_qnames)` in `find_messages`);
`none` when some qname has no colon and the subscript raises. -/
def findMessagesNames (qnames : List String) : Option (List String) :=
  mapOpt (fun q => (splitQn q).map (·.2)) qnames

/-- Messages whose `name` is among the collected local parts
(`find_messages`). -/
def findMessages (msgs : List Message) (names : List String) : List Message :=
  msgs.filter (fun m =>
    match m.name with
    | some n => decide (n ∈ names)
    | none => false)

/-- Delete every message whose name is not the name of a kept message
(`prune_messages`). -/
def pruneMessagesList (msgs keepMessages : List Message) : List Message :=
  msgs.filter (fun m => decide (m.name ∈ keepMessages.map Message.name))

/-- The `element`/`type` references of one part, in attribute scan
order, skipping absent or empty values
(`collect_schema_qnames_from_messages`, inner loop). -/
def partRefs (p : Part) : List String :=
  truthy p.element ++ truthy p.typ

/-- Resolve every part reference of the kept messages against the root
namespace map (`collect_schema_qnames_from_messages`); fails on a value
without a colon (`resolve_qname` unpacking raises `ValueError`). -/
def collectSchemaQnamesFromMessages (nsmap : List (String × String))
    (msgs : List Message) : Option (List Key) :=
  mapOpt (fun s =>
      (splitQn s).map (fun pl => ((nsLookup nsmap pl.1 : Option String), pl.2)))
    (concatMap (fun m => concatMap partRefs m.parts) msgs)

/-- Retention test of one top-level declaration in the schema with
target namespace `t`: unnamed declarations are never deletion
candidates, named ones are kept iff their key is retained. -/
def keepItemPred (keepKeys : List Key) (t : Option String)
    (n : SchemaNode) : Bool :=
  match n.name with
  | none => true
  | some nm => decide (((t, nm) : Key) ∈ keepKeys)

/-- Delete every named top-level schema declaration whose key is not
retained; unnamed declarations are never candidates; remove all
imports/includes unconditionally (`prune_schemas`). -/
def pruneSchemas (keepKeys : List Key) (schemas : List Schema) :
    List Schema :=
  schemas.map (fun sch =>
    { tns := sch.tns
      items := sch.items.filter (keepItemPred keepKeys sch.tns)
      imports := 0 })

/-- Delete every portType operation whose name is not kept
(`prune_porttype_operations`; an absent name is not in the keep set). -/
def prunePorttypeOperations (pt : PortType) (keepOps : List String) :
    PortType :=
  { pt with
    ops := pt.ops.filter (fun op =>
      match op.name with
      | some n => decide (n ∈ keepOps)
      | none => false) }

/-- Delete every binding operation whose name is not kept
(`prune_binding_operations`). -/
def pruneBindingOperations (cs : List BChild) (keepOps : List String) :
    List BChild :=
  cs.filter (fun c =>
    match c with
    | .operation (some n) => decide (n ∈ keepOps)
    | .operation none => false
    | _ => true)

/-- Does the binding carry a `soapbind:binding` child
(`is_soap12_binding`; the namespace it checks is the SOAP 1.1 WSDL
binding namespace)? -/
def isSoap12Binding (b : Binding) : Bool :=
  b.children.any (fun c =>
    match c with
    | .soapBinding => true
    | _ => false)

def isUsingPolicyChild : BChild → Bool
  | .usingPolicy _ => true
  | _ => false

def isPolicyChild : BChild → Bool
  | .policy _ => true
  | _ => false

/-- Splice the fragment's policy pair into the binding children
(`attach_policy_to_binding`): remove the first existing
`wsp:UsingPolicy` if any, insert the fragment's first at position 1,
likewise `wsp:Policy` at position 2.  Returns the children as they
stand at each possible `IndexError` (fragment lacking the node). -/
def attachPolicyToBinding (frag : PolicyDoc) (cs : List BChild) :
    List BChild × Option Err :=
  let cs1 := erasePFirst isUsingPolicyChild cs
  match frag.ups with
  | [] => (cs1, some .policyNoUsingPolicy)
  | u :: _ =>
    let cs2 := insertClamp 1 (BChild.usingPolicy u) cs1
    let cs3 := erasePFirst isPolicyChild cs2
    match frag.pols with
    | [] => (cs3, some .policyNoPolicy)
    | p :: _ => (insertClamp 2 (BChild.policy p) cs3, none)

/-- Remove every root-level `wsp:Policy` / `wsp:UsingPolicy`
(`prune_existing_policy`). -/
def pruneExistingPolicy (doc : Doc) : Doc :=
  { doc with rootPol := 0, rootUP := 0 }

/-- Keep only the target binding; prune its operations; when it has a
`soapbind:binding` child and a policy fragment is supplied, remove the
root-level policy pair and splice the fragment in (`prune_bindings`).
The loop removes non-target bindings as it meets them, so when the
splice raises, bindings after the target are still present. -/
def pruneBindings (doc : Doc) (bIdx : Nat) (keepOps : List String)
    (pol : Option PolicyDoc) : Doc × Option Err :=
  match nth? doc.bindings bIdx with
  | none => (doc, none)
  | some b =>
    let b1 : Binding := { b with children := pruneBindingOperations b.children keepOps }
    match pol with
    | some frag =>
      if isSoap12Binding b1 then
        let doc1 := pruneExistingPolicy doc
        match attachPolicyToBinding frag b1.children with
        | (cs, some e) =>
          ({ doc1 with bindings :=
              { b1 with children := cs } :: doc.bindings.drop (bIdx + 1) },
            some e)
        | (cs, none) =>
          ({ doc1 with bindings := [{ b1 with children := cs }] }, none)
      else ({ doc with bindings := [b1] }, none)
    | none => ({ doc with bindings := [b1] }, none)

/-- Keep only the ports whose binding reference has the target
binding's local name (`prune_service_ports`): a falsy attribute is
removed without parsing, a truthy attribute without a colon raises
`IndexError` mid-loop (the current and later ports are still in
place). -/
def pruneServicePortsAux (targetName : Option String) :
    List Port → List Port × Option Err
  | [] => ([], none)
  | p :: ps =>
    match p.binding with
    | none => pruneServicePortsAux targetName ps
    | some bq =>
      if bq = "" then pruneServicePortsAux targetName ps
      else
        match splitQn bq with
        | none => (p :: ps, some .servicePortNoColon)
        | some pl =>
          if targetName = some pl.2 then
            match pruneServicePortsAux targetName ps with
            | (r, e) => (p :: r, e)
          else pruneServicePortsAux targetName ps

/-- Prune the target service's ports in place. -/
def pruneServicePorts (doc : Doc) (sIdx : Nat) (targetName : Option String) :
    Doc × Option Err :=
  match nth? doc.services sIdx with
  | none => (doc, none)
  | some svc =>
    match pruneServicePortsAux targetName svc.ports with
    | (ps, e) =>
      ({ doc with services := setAt doc.services sIdx { svc with ports := ps } }, e)

/-- Keep only the target portType (`prune_unused_porttypes`). -/
def pruneUnusedPorttypes (doc : Doc) (ptIdx : Nat) : Doc :=
  { doc with portTypes :=
      match nth? doc.portTypes ptIdx with
      | some pt => [pt]
      | none => [] }

/-! ### Target resolution (the pre-mutation lookups of `prune_wsdl`) -/

/-- The resolved targets: the service, the first port's binding and the
binding's portType, with their indices in the respective root child
lists (`resolve_qname` with a tag searches those lists by local name,
first match wins; object identity in the Python loops is modelled by
the index). -/
structure Targets where
  sIdx : Nat
  svc : Service
  bIdx : Nat
  bnd : Binding
  ptIdx : Nat
  pt : PortType
deriving DecidableEq, Repr

/-- Lines 233-243 of `prune_wsdl`: locate the service by name, take its
first port, resolve the port's binding by local name, resolve the
binding's portType by local name.  Every failure here happens before
any mutation. -/
def resolveTargets (doc : Doc) (serviceName : String) : Except Err Targets :=
  match firstIdxWhere (fun s => decide (s.name = some serviceName)) doc.services with
  | none => .error .serviceNotFound
  | some sIdx =>
    match nth? doc.services sIdx with
    | none => .error .serviceNotFound
    | some svc =>
      match svc.ports with
      | [] => .error .noPort
      | p0 :: _ =>
        match p0.binding with
        | none => .error .portBindingMissing
        | some bq =>
          match splitQn bq with
          | none => .error .portBindingNoColon
          | some bql =>
            match firstIdxWhere (fun b => decide (b.name = some bql.2)) doc.bindings with
            | none => .error .bindingNotFound
            | some bIdx =>
              match nth? doc.bindings bIdx with
              | none => .error .bindingNotFound
              | some b =>
                match b.typ with
                | none => .error .bindingTypeMissing
                | some tq =>
                  match splitQn tq with
                  | none => .error .bindingTypeNoColon
                  | some tql =>
                    match firstIdxWhere (fun pt => decide (pt.name = some tql.2)) doc.portTypes with
                    | none => .error .portTypeNotFound
                    | some ptIdx =>
                      match nth? doc.portTypes ptIdx with
                      | none => .error .portTypeNotFound
                      | some pt => .ok ⟨sIdx, svc, bIdx, b, ptIdx, pt⟩

/-! ### The orchestrated pipeline (`prune_wsdl`)

The intermediate documents are named definitions so that theorems can
speak about the data each stage consumed. -/

/-- Document after stage 1 (portType operations pruned). -/
def mkDoc1 (doc : Doc) (tg : Targets) (keepOps : List String) : Doc :=
  let pts := setAt doc.portTypes tg.ptIdx (prunePorttypeOperations tg.pt keepOps)
  { doc with portTypes := pts }

/-- The kept messages (stage 2 scan, before message deletion). -/
def keepMsgsOf (doc : Doc) (tg : Targets) (keepOps : List String)
    (names : List String) : List Message :=
  findMessages (mkDoc1 doc tg keepOps).messages names

/-- Document after stage 2 (messages pruned). -/
def mkDoc2 (doc : Doc) (tg : Targets) (keepOps : List String)
    (names : List String) : Doc :=
  let msgs := pruneMessagesList (mkDoc1 doc tg keepOps).messages
    (keepMsgsOf doc tg keepOps names)
  { mkDoc1 doc tg keepOps with messages := msgs }

/-- The retained schema key set computed by stage 3. -/
def keepKeysOf (doc : Doc) (tg : Targets) (keepOps : List String)
    (names : List String) (seeds : List Key) : List Key :=
  reachableKeepS (mkDoc2 doc tg keepOps names).nsmap
    (mkDoc2 doc tg keepOps names).schemas seeds

/-- Document after stage 3 (schemas pruned). -/
def mkDoc3 (doc : Doc) (tg : Targets) (keepOps : List String)
    (names : List String) (seeds : List Key) : Doc :=
  let schs := pruneSchemas (keepKeysOf doc tg keepOps names seeds)
    (mkDoc2 doc tg keepOps names).schemas
  { mkDoc2 doc tg keepOps names with schemas := schs }

/-- The whole run of `prune_wsdl` on a parsed document: returns the
tree as it stands when the run finishes or when the first uncaught
exception is raised, together with the failure if any. -/
def pruneWsdl (doc : Doc) (serviceName : String) (keepOps : List String)
    (pol : Option PolicyDoc) : Doc × Option Err :=
  match resolveTargets doc serviceName with
  | .error e => (doc, some e)
  | .ok tg =>
    match findMessagesNames
        (collectMessagesFromPorttype (prunePorttypeOperations tg.pt keepOps)) with
    | none => (mkDoc1 doc tg keepOps, some .messageRefNoColon)
    | some names =>
      match collectSchemaQnamesFromMessages (mkDoc2 doc tg keepOps names).nsmap
          (keepMsgsOf doc tg keepOps names) with
      | none => (mkDoc2 doc tg keepOps names, some .partRefNoColon)
      | some seeds =>
        match pruneBindings (mkDoc3 doc tg keepOps names seeds) tg.bIdx keepOps pol with
        | (doc4, some e) => (doc4, some e)
        | (doc4, none) =>
          match pruneServicePorts doc4 tg.sIdx tg.bnd.name with
          | (doc5, some e) => (doc5, some e)
          | (doc5, none) => (pruneUnusedPorttypes doc5 tg.ptIdx, none)

/-! ### Inversion lemmas for the pipeline -/

theorem resolveTargets_ok_elim {doc : Doc} {sname : String} {tg : Targets}
    (h : resolveTargets doc sname = .ok tg) :
    firstIdxWhere (fun s => decide (s.name = some sname)) doc.services = some tg.sIdx ∧
    nth? doc.services tg.sIdx = some tg.svc ∧
    tg.svc.name = some sname ∧
    ∃ p0 ps bq bql tq tql,
      tg.svc.ports = p0 :: ps ∧ p0.binding = some bq ∧ splitQn bq = some bql ∧
      firstIdxWhere (fun b => decide (b.name = some bql.2)) doc.bindings = some tg.bIdx ∧
      nth? doc.bindings tg.bIdx = some tg.bnd ∧ tg.bnd.name = some bql.2 ∧
      tg.bnd.typ = some tq ∧ splitQn tq = some tql ∧
      firstIdxWhere (fun pt => decide (pt.name = some tql.2)) doc.portTypes = some tg.ptIdx ∧
      nth? doc.portTypes tg.ptIdx = some tg.pt ∧ tg.pt.name = some tql.2 := by
  unfold resolveTargets at h
  cases hsi : firstIdxWhere (fun s => decide (s.name = some sname)) doc.services with
  | none => simp only [hsi] at h; cases h
  | some sIdx =>
  simp only [hsi] at h
  cases hsv : nth? doc.services sIdx with
  | none => simp only [hsv] at h; cases h
  | some svc =>
  simp only [hsv] at h
  cases hports : svc.ports with
  | nil => simp only [hports] at h; cases h
  | cons p0 ps =>
  simp only [hports] at h
  cases hpb : p0.binding with
  | none => simp only [hpb] at h; cases h
  | some bq =>
  simp only [hpb] at h
  cases hsq : splitQn bq with
  | none => simp only [hsq] at h; cases h
  | some bql =>
  simp only [hsq] at h
  cases hbi : firstIdxWhere (fun b => decide (b.name = some bql.2)) doc.bindings with
  | none => simp only [hbi] at h; cases h
  | some bIdx =>
  simp only [hbi] at h
  cases hbv : nth? doc.bindings bIdx with
  | none => simp only [hbv] at h; cases h
  | some b =>
  simp only [hbv] at h
  cases hbt : b.typ with
  | none => simp only [hbt] at h; cases h
  | some tq =>
  simp only [hbt] at h
  cases htq : splitQn tq with
  | none => simp only [htq] at h; cases h
  | some tql =>
  simp only [htq] at h
  cases hpi : firstIdxWhere (fun pt => decide (pt.name = some tql.2)) doc.portTypes with
  | none => simp only [hpi] at h; cases h
  | some ptIdx =>
  simp only [hpi] at h
  cases hpv : nth? doc.portTypes ptIdx with
  | none => simp only [hpv] at h; cases h
  | some pt =>
  simp only [hpv] at h
  cases h
  have hsvname : svc.name = some sname := by
    obtain ⟨x, hx, hpx⟩ := firstIdxWhere_nth hsi
    simp only [hx] at hsv
    cases hsv
    exact of_decide_eq_true hpx
  have hbname : b.name = some bql.2 := by
    obtain ⟨x, hx, hpx⟩ := firstIdxWhere_nth hbi
    simp only [hx] at hbv
    cases hbv
    exact of_decide_eq_true hpx
  have hptname : pt.name = some tql.2 := by
    obtain ⟨x, hx, hpx⟩ := firstIdxWhere_nth hpi
    simp only [hx] at hpv
    cases hpv
    exact of_decide_eq_true hpx
  exact ⟨rfl, hsv, hsvname, p0, ps, bq, bql, tq, tql, hports, hpb, hsq,
    hbi, hbv, hbname, hbt, htq, hpi, hpv, hptname⟩

theorem filter_congr_mem {p q : α → Bool} :
    ∀ {l : List α}, (∀ x ∈ l, p x = q x) → l.filter p = l.filter q := by
  intro l
  induction l with
  | nil => intro _; rfl
  | cons x xs ih =>
    intro h
    have hx := h x (List.mem_cons_self _ _)
    have hrest := ih (fun y hy => h y (List.mem_cons_of_mem _ hy))
    cases hq : q x with
    | false =>
      rw [List.filter_cons_of_neg (by rw [hx, hq]; simp),
        List.filter_cons_of_neg (by rw [hq]; simp)]
      exact hrest
    | true =>
      rw [List.filter_cons_of_pos (by rw [hx, hq]),
        List.filter_cons_of_pos (by rw [hq]), hrest]

theorem filter_idem (p : α → Bool) : ∀ l : List α,
    (l.filter p).filter p = l.filter p := by
  intro l
  induction l with
  | nil => rfl
  | cons x xs ih =>
    cases hp : p x with
    | false =>
      rw [List.filter_cons_of_neg (by rw [hp]; simp)]
      exact ih
    | true =>
      rw [List.filter_cons_of_pos (by rw [hp]),
        List.filter_cons_of_pos (by rw [hp]),
        ih]

theorem filter_erasePFirst_disjoint {p q : α → Bool}
    (hdis : ∀ x, q x = true → p x = false) :
    ∀ l : List α, (erasePFirst q l).filter p = l.filter p := by
  intro l
  induction l with
  | nil => rfl
  | cons x xs ih =>
    unfold erasePFirst
    by_cases hq : q x
    · rw [if_pos hq, List.filter_cons_of_neg (by rw [hdis x hq]; simp)]
    · rw [if_neg hq]
      cases hp : p x with
      | false =>
        rw [List.filter_cons_of_neg (by rw [hp]; simp),
          List.filter_cons_of_neg (by rw [hp]; simp)]
        exact ih
      | true =>
        rw [List.filter_cons_of_pos (by rw [hp]),
          List.filter_cons_of_pos (by rw [hp]), ih]

theorem filter_insertClamp_neg {p : α → Bool} {a : α} (ha : p a = false) :
    ∀ (i : Nat) (l : List α), (insertClamp i a l).filter p = l.filter p := by
  intro i l
  induction l generalizing i with
  | nil =>
    have hnil : insertClamp i a ([] : List α) = [a] := by
      cases i <;> rfl
    rw [hnil, List.filter_cons_of_neg (by rw [ha]; simp)]
  | cons x xs ih =>
    cases i with
    | zero =>
      show (a :: x :: xs).filter p = (x :: xs).filter p
      rw [List.filter_cons_of_neg (by rw [ha]; simp)]
    | succ n =>
      show (x :: insertClamp n a xs).filter p = (x :: xs).filter p
      cases hp : p x with
      | false =>
        rw [List.filter_cons_of_neg (by rw [hp]; simp),
          List.filter_cons_of_neg (by rw [hp]; simp)]
        exact ih n
      | true =>
        rw [List.filter_cons_of_pos (by rw [hp]),
          List.filter_cons_of_pos (by rw [hp]), ih n]

/-- Is this binding child a `wsdl:operation`? -/
def isOperationChild : BChild → Bool
  | .operation _ => true
  | _ => false

theorem attachPolicy_filter_ops (frag : PolicyDoc) (cs0 : List BChild) :
    ((attachPolicyToBinding frag cs0).1).filter isOperationChild =
      cs0.filter isOperationChild := by
  have hup : ∀ c, isUsingPolicyChild c = true → isOperationChild c = false := by
    intro c hc
    cases c <;> simp_all [isUsingPolicyChild, isOperationChild]
  have hpol : ∀ c, isPolicyChild c = true → isOperationChild c = false := by
    intro c hc
    cases c <;> simp_all [isPolicyChild, isOperationChild]
  unfold attachPolicyToBinding
  cases frag.ups with
  | nil =>
    exact filter_erasePFirst_disjoint hup cs0
  | cons u us =>
    cases frag.pols with
    | nil =>
      simp only []
      rw [filter_erasePFirst_disjoint hpol,
        filter_insertClamp_neg (by rfl),
        filter_erasePFirst_disjoint hup]
    | cons p ps =>
      simp only []
      rw [filter_insertClamp_neg (by rfl),
        filter_erasePFirst_disjoint hpol,
        filter_insertClamp_neg (by rfl),
        filter_erasePFirst_disjoint hup]

theorem pruneWsdl_ok_elim {doc : Doc} {sname : String} {ko : List String}
    {pol : Option PolicyDoc} {d : Doc}
    (h : pruneWsdl doc sname ko pol = (d, none)) :
    ∃ tg names seeds doc4 doc5,
      resolveTargets doc sname = .ok tg ∧
      findMessagesNames (collectMessagesFromPorttype
        (prunePorttypeOperations tg.pt ko)) = some names ∧
      collectSchemaQnamesFromMessages (mkDoc2 doc tg ko names).nsmap
        (keepMsgsOf doc tg ko names) = some seeds ∧
      pruneBindings (mkDoc3 doc tg ko names seeds) tg.bIdx ko pol = (doc4, none) ∧
      pruneServicePorts doc4 tg.sIdx tg.bnd.name = (doc5, none) ∧
      d = pruneUnusedPorttypes doc5 tg.ptIdx := by
  unfold pruneWsdl at h
  cases hrt : resolveTargets doc sname with
  | error e =>
    simp only [hrt, Prod.mk.injEq] at h
    exact absurd h.2 (Option.some_ne_none _)
  | ok tg =>
  simp only [hrt] at h
  cases hn : findMessagesNames (collectMessagesFromPorttype
      (prunePorttypeOperations tg.pt ko)) with
  | none =>
    simp only [hn, Prod.mk.injEq] at h
    exact absurd h.2 (Option.some_ne_none _)
  | some names =>
  simp only [hn] at h
  cases hs : collectSchemaQnamesFromMessages (mkDoc2 doc tg ko names).nsmap
      (keepMsgsOf doc tg ko names) with
  | none =>
    simp only [hs, Prod.mk.injEq] at h
    exact absurd h.2 (Option.some_ne_none _)
  | some seeds =>
  simp only [hs] at h
  cases hpb : pruneBindings (mkDoc3 doc tg ko names seeds) tg.bIdx ko pol with
  | mk doc4 e4 =>
  cases e4 with
  | some e =>
    simp only [hpb, Prod.mk.injEq] at h
    exact absurd h.2 (Option.some_ne_none _)
  | none =>
  simp only [hpb] at h
  cases hps : pruneServicePorts doc4 tg.sIdx tg.bnd.name with
  | mk doc5 e5 =>
  cases e5 with
  | some e =>
    simp only [hps, Prod.mk.injEq] at h
    exact absurd h.2 (Option.some_ne_none _)
  | none =>
  simp only [hps, Prod.mk.injEq] at h
  exact ⟨tg, names, seeds, doc4, doc5, rfl, hn, hs, hpb, hps, h.1.symm⟩

theorem pruneBindings_ok_elim {doc : Doc} {i : Nat} {ko : List String}
    {pol : Option PolicyDoc} {doc4 : Doc} {b : Binding}
    (hb : nth? doc.bindings i = some b)
    (h : pruneBindings doc i ko pol = (doc4, none)) :
    ∃ cs, doc4.bindings = [{ b with children := cs }] ∧
      cs.filter isOperationChild =
        (pruneBindingOperations b.children ko).filter isOperationChild ∧
      doc4.nsmap = doc.nsmap ∧ doc4.services = doc.services ∧
      doc4.portTypes = doc.portTypes ∧ doc4.messages = doc.messages ∧
      doc4.schemas = doc.schemas := by
  unfold pruneBindings at h
  simp only [hb] at h
  cases pol with
  | none =>
    simp only [Prod.mk.injEq] at h
    refine ⟨pruneBindingOperations b.children ko, ?_, rfl, ?_, ?_, ?_, ?_, ?_⟩ <;>
      (rw [← h.1]; try rfl)
  | some frag =>
    simp only [] at h
    by_cases hsoap : isSoap12Binding
        { b with children := pruneBindingOperations b.children ko } = true
    · rw [if_pos hsoap] at h
      cases hat : attachPolicyToBinding frag
          (pruneBindingOperations b.children ko) with
      | mk cs e =>
      cases e with
      | some e' =>
        simp only [hat, Prod.mk.injEq] at h
        exact absurd h.2 (Option.some_ne_none _)
      | none =>
        simp only [hat, Prod.mk.injEq] at h
        refine ⟨cs, ?_, ?_, ?_, ?_, ?_, ?_, ?_⟩
        · rw [← h.1]
        · have := attachPolicy_filter_ops frag (pruneBindingOperations b.children ko)
          rw [hat] at this
          exact this
        all_goals (rw [← h.1]; try rfl)
    · rw [if_neg hsoap] at h
      simp only [Prod.mk.injEq] at h
      refine ⟨pruneBindingOperations b.children ko, ?_, ?_, ?_, ?_, ?_, ?_, ?_⟩
      · rw [← h.1]
      · rfl
      all_goals (rw [← h.1]; try rfl)

theorem pruneServicePortsAux_ok_post {t : Option String} :
    ∀ {ps r : List Port}, pruneServicePortsAux t ps = (r, none) →
    ∀ p ∈ r, ∃ bq bql, p.binding = some bq ∧ bq ≠ "" ∧
      splitQn bq = some bql ∧ t = some bql.2 := by
  intro ps
  induction ps with
  | nil =>
    intro r h p hp
    simp only [pruneServicePortsAux, Prod.mk.injEq] at h
    rw [← h.1] at hp
    cases hp
  | cons p0 ps ih =>
    intro r h p hp
    unfold pruneServicePortsAux at h
    cases hpb : p0.binding with
    | none =>
      simp only [hpb] at h
      exact ih h p hp
    | some bq =>
    simp only [hpb] at h
    by_cases hbq : bq = ""
    · rw [if_pos hbq] at h
      exact ih h p hp
    · rw [if_neg hbq] at h
      cases hsq : splitQn bq with
      | none =>
        simp only [hsq, Prod.mk.injEq] at h
        exact absurd h.2 (Option.some_ne_none _)
      | some bql =>
      simp only [hsq] at h
      by_cases ht : t = some bql.2
      · rw [if_pos ht] at h
        cases har : pruneServicePortsAux t ps with
        | mk r' e =>
        simp only [har, Prod.mk.injEq] at h
        obtain ⟨h1, h2⟩ := h
        subst h2
        rw [← h1] at hp
        rcases List.mem_cons.mp hp with rfl | hp'
        · exact ⟨bq, bql, hpb, hbq, hsq, ht⟩
        · exact ih har p hp'
      · rw [if_neg ht] at h
        exact ih h p hp

theorem pruneServicePortsAux_keep_all {t : Option String} :
    ∀ {ps : List Port},
    (∀ p ∈ ps, ∃ bq bql, p.binding = some bq ∧ bq ≠ "" ∧
      splitQn bq = some bql ∧ t = some bql.2) →
    pruneServicePortsAux t ps = (ps, none) := by
  intro ps
  induction ps with
  | nil => intro _; rfl
  | cons p0 ps ih =>
    intro h
    obtain ⟨bq, bql, hpb, hbq, hsq, ht⟩ := h p0 (List.mem_cons_self _ _)
    have hrest := ih (fun q hq => h q (List.mem_cons_of_mem _ hq))
    unfold pruneServicePortsAux
    simp only [hpb]
    rw [if_neg hbq]
    simp only [hsq]
    rw [if_pos ht]
    simp only [hrest]

theorem pruneServicePortsAux_first {t : Option String} {p0 : Port}
    {ps : List Port} {bq : String} {bql : String × String}
    (hb : p0.binding = some bq) (hs : splitQn bq = some bql)
    (ht : t = some bql.2) :
    ∃ r e, pruneServicePortsAux t (p0 :: ps) = (p0 :: r, e) ∧
      pruneServicePortsAux t ps = (r, e) := by
  have hbq : bq ≠ "" := by
    intro hcon
    rw [hcon] at hs
    cases hs
  cases har : pruneServicePortsAux t ps with
  | mk r e =>
  refine ⟨r, e, ?_, rfl⟩
  unfold pruneServicePortsAux
  simp only [hb]
  rw [if_neg hbq]
  simp only [hs]
  rw [if_pos ht]
  simp only [har]

theorem pruneMessagesList_findMessages (msgs : List Message)
    (names : List String) :
    pruneMessagesList msgs (findMessages msgs names) =
      findMessages msgs names := by
  unfold pruneMessagesList findMessages
  apply filter_congr_mem
  intro m hm
  cases hname : m.name with
  | none =>
    simp only [hname, decide_eq_false_iff_not]
    intro hmem
    rw [List.mem_map] at hmem
    obtain ⟨m', hm', hname'⟩ := hmem
    rw [List.mem_filter] at hm'
    cases hmn : m'.name with
    | none => rw [hmn] at hm'; simp at hm'
    | some n' =>
      rw [hmn] at hname'
      cases hname'
  | some n =>
    simp only [hname, decide_eq_decide]
    constructor
    · intro hmem
      rw [List.mem_map] at hmem
      obtain ⟨m', hm', hname'⟩ := hmem
      rw [List.mem_filter] at hm'
      cases hmn : m'.name with
      | none => rw [hmn] at hm'; simp at hm'
      | some n' =>
        rw [hmn] at hm'
        rw [hmn] at hname'
        cases hname'
        have := hm'.2
        simpa using this
    · intro hn
      rw [List.mem_map]
      refine ⟨m, ?_, hname⟩
      rw [List.mem_filter]
      refine ⟨hm, ?_⟩
      rw [hname]
      simpa using hn

/-! ### Concrete documents for witnesses and counterexamples -/

/-- A document with no content at all. -/
def docEmpty : Doc := ⟨[], [], [], [], [], [], 0, 0⟩

/-- A minimal well-formed document whose binding carries the
`soapbind:binding` marker. -/
def bSoap : Binding := ⟨some "B", some "tns:PT", [.soapBinding]⟩

def docSoap : Doc :=
  ⟨[("tns", "N")], [⟨some "S", [⟨some "tns:B"⟩]⟩], [bSoap],
    [⟨some "PT", []⟩], [], [], 0, 0⟩

/-- A policy fragment with two `wsp:UsingPolicy` nodes and one
`wsp:Policy` node. -/
def fragTwoUP : PolicyDoc := ⟨["u1", "u2"], ["p1"]⟩

/-- A well-formed policy fragment (one node of each kind). -/
def fragUP : PolicyDoc := ⟨["u"], ["p"]⟩

/-- One schema with a self-referential complex type `A`. -/
def nsmapRec : List (String × String) := [("tns", "N")]

def schemasRec : List Schema := [⟨some "N", [⟨.ct, some "A", ["tns:A"]⟩], 0⟩]

def keyRec : Key := (some "N", "A")

/-- A schema where `A` references `B` only through an unprefixed
attribute value. -/
def doc10 : Doc :=
  ⟨[("tns", "N")], [], [], [], [],
    [⟨some "N", [⟨.ct, some "A", ["B"]⟩, ⟨.ct, some "B", []⟩], 0⟩], 0, 0⟩

def keyB : Key := (some "N", "B")

/-! ### Claim C5 -/

theorem resolveTargets_error_isLookup {doc : Doc} {sname : String} {e : Err}
    (h : resolveTargets doc sname = .error e) : e.isLookup = true := by
  unfold resolveTargets at h
  cases hsi : firstIdxWhere (fun s => decide (s.name = some sname)) doc.services with
  | none => simp only [hsi] at h; cases h; rfl
  | some sIdx =>
  simp only [hsi] at h
  cases hsv : nth? doc.services sIdx with
  | none => simp only [hsv] at h; cases h; rfl
  | some svc =>
  simp only [hsv] at h
  cases hports : svc.ports with
  | nil => simp only [hports] at h; cases h; rfl
  | cons p0 ps =>
  simp only [hports] at h
  cases hpb : p0.binding with
  | none => simp only [hpb] at h; cases h; rfl
  | some bq =>
  simp only [hpb] at h
  cases hsq : splitQn bq with
  | none => simp only [hsq] at h; cases h; rfl
  | some bql =>
  simp only [hsq] at h
  cases hbi : firstIdxWhere (fun b => decide (b.name = some bql.2)) doc.bindings with
  | none => simp only [hbi] at h; cases h; rfl
  | some bIdx =>
  simp only [hbi] at h
  cases hbv : nth? doc.bindings bIdx with
  | none => simp only [hbv] at h; cases h; rfl
  | some b =>
  simp only [hbv] at h
  cases hbt : b.typ with
  | none => simp only [hbt] at h; cases h; rfl
  | some tq =>
  simp only [hbt] at h
  cases htq : splitQn tq with
  | none => simp only [htq] at h; cases h; rfl
  | some tql =>
  simp only [htq] at h
  cases hpi : firstIdxWhere (fun pt => decide (pt.name = some tql.2)) doc.portTypes with
  | none => simp only [hpi] at h; cases h; rfl
  | some ptIdx =>
  simp only [hpi] at h
  cases hpv : nth? doc.portTypes ptIdx with
  | none => simp only [hpv] at h; cases h; rfl
  | some pt =>
  simp only [hpv] at h
  cases h

/-- C5: whenever target resolution fails (service not found, service
has no port, port's binding attribute absent or unresolvable, binding's
portType absent or unresolvable), the run raises that error and returns
the input tree completely unmutated, and the error is one of the
lookup-stage errors. -/
theorem c5_lookup_failure_aborts_before_mutation (doc : Doc) (sname : String)
    (ko : List String) (pol : Option PolicyDoc) (e : Err)
    (h : resolveTargets doc sname = .error e) :
    pruneWsdl doc sname ko pol = (doc, some e) ∧ e.isLookup = true := by
  constructor
  · unfold pruneWsdl
    simp only [h]
  · exact resolveTargets_error_isLookup h

theorem c5_witness :
    resolveTargets docEmpty "svc" = .error .serviceNotFound ∧
      (pruneWsdl docEmpty "svc" [] none = (docEmpty, some .serviceNotFound) ∧
        Err.isLookup .serviceNotFound = true) :=
  ⟨rfl, c5_lookup_failure_aborts_before_mutation docEmpty "svc" [] none
    .serviceNotFound rfl⟩

/-! ### Claim C7 -/

/-- C7 (amended): the policy-attachment step fails exactly when the
supplied fragment contains no `wsp:UsingPolicy` node or no `wsp:Policy`
node; one or more of each suffices (the first of each is spliced), so a
fragment with extra copies does not make the run fail. -/
theorem c7_policy_attach_fails_iff_node_missing (frag : PolicyDoc)
    (cs : List BChild) :
    (attachPolicyToBinding frag cs).2 = none ↔
      (frag.ups ≠ [] ∧ frag.pols ≠ []) := by
  unfold attachPolicyToBinding
  cases hu : frag.ups with
  | nil => simp
  | cons u us =>
    cases hp : frag.pols with
    | nil => simp
    | cons p ps => simp

/-- C7 counterexample: a fragment with two `wsp:UsingPolicy` nodes does
not contain exactly one, yet the run (policy stage included) succeeds,
refuting "for every supplied policy fragment that does not contain
exactly one UsingPolicy node and exactly one Policy node, the run
fails". -/
theorem c7_counterexample :
    fragTwoUP.ups.length = 2 ∧
      (pruneWsdl docSoap "S" [] (some fragTwoUP)).2 = none := by
  decide

/-! ### Claim C8 -/

/-- C8: a reference key with no declaring node in the document is
retained as a key and produces no further expansion: seeding it adds
exactly that key to the retained set (and the resolver, being a total
function, raises no error on it). -/
theorem c8_unresolved_reference_is_opaque_leaf (doc : Doc) (seeds : List Key)
    (k : Key) (h : byNameS doc.schemas k = []) :
    ∀ j, j ∈ reachableKeepS doc.nsmap doc.schemas (k :: seeds) ↔
      (j = k ∨ j ∈ reachableKeepS doc.nsmap doc.schemas seeds) := by
  have hsucc : succsS doc.nsmap doc.schemas k = [] := by
    unfold succsS
    rw [h]
    rfl
  intro j
  rw [mem_reachableKeepS, mem_reachableKeepS]
  constructor
  · intro hr
    induction hr with
    | seed hs =>
      rcases List.mem_cons.mp hs with rfl | hs'
      · exact Or.inl rfl
      · exact Or.inr (ReachS.seed hs')
    | step h1 h2 ih =>
      rcases ih with rfl | hr'
      · rw [hsucc] at h2
        cases h2
      · exact Or.inr (ReachS.step hr' h2)
  · intro hj
    rcases hj with rfl | hr
    · exact ReachS.seed (List.mem_cons_self _ _)
    · exact ReachS_mono (fun x hx => List.mem_cons_of_mem _ hx) hr

theorem c8_witness :
    byNameS docEmpty.schemas ((some "X", "Y") : Key) = [] ∧
      ∀ j, j ∈ reachableKeepS docEmpty.nsmap docEmpty.schemas
          [((some "X", "Y") : Key)] ↔
        (j = ((some "X", "Y") : Key) ∨
          j ∈ reachableKeepS docEmpty.nsmap docEmpty.schemas []) :=
  ⟨rfl, c8_unresolved_reference_is_opaque_leaf docEmpty [] _ rfl⟩

/-! ### Claim C2 -/

/-- C2 (amended): the worklist closure terminates on every document and
seed list (the bounding fuel drains the queue); the retained set holds
each key exactly once (it is duplicate-free, a key already retained is
skipped when popped rather than re-marked); and the retained set is
exactly the reachability closure of the seeds.  Marking happens in the
same loop step that expands a key's references, i.e. before expansion.
However, keys are pushed onto the worklist without checking the
retained set, so an already-marked key can appear on the queue again
(see the counterexample); such re-pushed keys are discarded when
popped. -/
theorem c2_worklist_terminates_and_characterizes (doc : Doc)
    (seeds : List Key) :
    (loopAuxS doc.nsmap doc.schemas (fuelForS doc.nsmap doc.schemas seeds) []
        seeds.reverse).2 = [] ∧
      (reachableKeepS doc.nsmap doc.schemas seeds).Nodup ∧
      ∀ k, k ∈ reachableKeepS doc.nsmap doc.schemas seeds ↔
        ReachS doc.nsmap doc.schemas seeds k :=
  ⟨reachableKeepS_drains _ _ _,
    loop_nodup _ _ _ _ _ List.nodup_nil,
    fun _ => mem_reachableKeepS⟩

/-- C2 counterexample: on a self-referential schema item, the first
loop iteration marks the key and then pushes it again, so the queue
contains a key that is already in the retained set — refuting "a key is
never pushed onto the worklist again once it has been marked".  (The
run still terminates and retains the key exactly once.) -/
theorem c2_counterexample :
    loopAuxS nsmapRec schemasRec 1 [] [keyRec] = ([keyRec], [keyRec]) ∧
      reachableKeepS nsmapRec schemasRec [keyRec] = [keyRec] := by
  decide

/-! ### Claim C10 -/

/-- C10: `type`/`ref`/`base` attribute values without a colon are never
followed (a node all of whose reference values are colon-free
contributes no successors), and a named top-level schema item whose key
is not reachable through colon-carrying references from the seeds is
not retained and no item carrying that key survives schema pruning. -/
theorem c10_unprefixed_references_not_followed (doc : Doc) (seeds : List Key)
    (k : Key) (h : ¬ ReachS doc.nsmap doc.schemas seeds k) :
    (∀ (nsm : List (String × String)) (n : SchemaNode),
      (∀ s ∈ n.refs, ':' ∉ s.toList) → refsResolved nsm n = []) ∧
    k ∉ reachableKeepS doc.nsmap doc.schemas seeds ∧
    ∀ sch ∈ pruneSchemas (reachableKeepS doc.nsmap doc.schemas seeds)
        doc.schemas,
      ∀ n ∈ sch.items, ¬ (sch.tns = k.1 ∧ n.name = some k.2) := by
  refine ⟨?_, ?_, ?_⟩
  · intro nsm n hn
    unfold refsResolved
    rw [List.filterMap_eq_nil_iff]
    intro s hs
    rw [Option.map_eq_none']
    unfold splitQn
    rw [Option.map_eq_none']
    exact splitColonAux_eq_none.mpr (hn s hs)
  · intro hk
    exact h (mem_reachableKeepS.mp hk)
  · rintro sch hsch n hn ⟨h1, h2⟩
    unfold pruneSchemas at hsch
    rw [List.mem_map] at hsch
    obtain ⟨sch0, hsch0, rfl⟩ := hsch
    have hc := (List.mem_filter.mp hn).2
    unfold keepItemPred at hc
    simp only [h2] at hc
    have hkeep : ((sch0.tns, k.2) : Key) ∈
        reachableKeepS doc.nsmap doc.schemas seeds := of_decide_eq_true hc
    have h1' : sch0.tns = k.1 := h1
    rw [h1'] at hkeep
    exact h (mem_reachableKeepS.mp hkeep)

theorem c10_witness :
    keyB ∉ reachableKeepS doc10.nsmap doc10.schemas
        [((some "N", "A") : Key)] ∧
      ((∀ (nsm : List (String × String)) (n : SchemaNode),
        (∀ s ∈ n.refs, ':' ∉ s.toList) → refsResolved nsm n = []) ∧
      keyB ∉ reachableKeepS doc10.nsmap doc10.schemas
          [((some "N", "A") : Key)] ∧
      ∀ sch ∈ pruneSchemas (reachableKeepS doc10.nsmap doc10.schemas
          [((some "N", "A") : Key)]) doc10.schemas,
        ∀ n ∈ sch.items, ¬ (sch.tns = keyB.1 ∧ n.name = some keyB.2)) :=
  ⟨by decide, c10_unprefixed_references_not_followed doc10 _ keyB
    (fun hr => absurd (mem_reachableKeepS.mpr hr) (by decide))⟩

/-! ### Claim C6 -/

theorem usingPolicyChild_not_op :
    ∀ c, isUsingPolicyChild c = true → isOperationChild c = false := by
  intro c hc
  cases c <;> simp_all [isUsingPolicyChild, isOperationChild]

theorem policyChild_not_op :
    ∀ c, isPolicyChild c = true → isOperationChild c = false := by
  intro c hc
  cases c <;> simp_all [isPolicyChild, isOperationChild]

/-- C6: with a policy fragment supplied, the policy splice happens if
and only if the surviving binding carries the `soapbind:binding` child
the code checks for.  When it does not, the binding is kept with only
its operations pruned and no policy mutation at all; when it does (and
the fragment is non-degenerate), the root policy pair is removed, the
fragment's first `UsingPolicy` and `Policy` nodes are spliced into the
surviving binding's children, and binding-operation pruning still
applies (the operation children are exactly those of the
operations-pruned binding). -/
theorem c6_policy_splice_iff_soap_transport (doc : Doc) (bIdx : Nat)
    (ko : List String) (frag : PolicyDoc) (b : Binding)
    (hb : nth? doc.bindings bIdx = some b) :
    (isSoap12Binding { b with children := pruneBindingOperations b.children ko } = false →
      pruneBindings doc bIdx ko (some frag) =
        ({ doc with bindings := [{ b with children := pruneBindingOperations b.children ko }] }, none)) ∧
    (isSoap12Binding { b with children := pruneBindingOperations b.children ko } = true →
      ∀ u us p ps, frag.ups = u :: us → frag.pols = p :: ps →
      ∃ cs, pruneBindings doc bIdx ko (some frag) =
          ({ doc with rootUP := 0, rootPol := 0, bindings := [{ b with children := cs }] }, none) ∧
        BChild.usingPolicy u ∈ cs ∧ BChild.policy p ∈ cs ∧
        cs.filter isOperationChild =
          (pruneBindingOperations b.children ko).filter isOperationChild) := by
  constructor
  · intro hsoap
    unfold pruneBindings
    simp only [hb]
    rw [if_neg (by rw [hsoap]; simp)]
  · intro hsoap u us p ps hu hp
    have hat : attachPolicyToBinding frag (pruneBindingOperations b.children ko) =
        (insertClamp 2 (BChild.policy p) (erasePFirst isPolicyChild
          (insertClamp 1 (BChild.usingPolicy u) (erasePFirst isUsingPolicyChild
            (pruneBindingOperations b.children ko)))), none) := by
      unfold attachPolicyToBinding
      simp only [hu, hp]
    refine ⟨insertClamp 2 (BChild.policy p) (erasePFirst isPolicyChild
      (insertClamp 1 (BChild.usingPolicy u) (erasePFirst isUsingPolicyChild
        (pruneBindingOperations b.children ko)))), ?_, ?_, ?_, ?_⟩
    · unfold pruneBindings
      simp only [hb]
      rw [if_pos hsoap]
      simp only [hat]
      rfl
    · exact mem_insertClamp.mpr (Or.inr (mem_erasePFirst_of_not
        (mem_insertClamp.mpr (Or.inl rfl)) rfl))
    · exact mem_insertClamp.mpr (Or.inl rfl)
    · rw [filter_insertClamp_neg rfl,
        filter_erasePFirst_disjoint policyChild_not_op,
        filter_insertClamp_neg rfl,
        filter_erasePFirst_disjoint usingPolicyChild_not_op]

theorem c6_witness :
    nth? docSoap.bindings 0 = some bSoap ∧
      ((isSoap12Binding { bSoap with children := pruneBindingOperations bSoap.children [] } = false →
        pruneBindings docSoap 0 [] (some fragUP) =
          ({ docSoap with bindings := [{ bSoap with children := pruneBindingOperations bSoap.children [] }] }, none)) ∧
      (isSoap12Binding { bSoap with children := pruneBindingOperations bSoap.children [] } = true →
        ∀ u us p ps, fragUP.ups = u :: us → fragUP.pols = p :: ps →
        ∃ cs, pruneBindings docSoap 0 [] (some fragUP) =
            ({ docSoap with rootUP := 0, rootPol := 0, bindings := [{ bSoap with children := cs }] }, none) ∧
          BChild.usingPolicy u ∈ cs ∧ BChild.policy p ∈ cs ∧
          cs.filter isOperationChild =
            (pruneBindingOperations bSoap.children []).filter isOperationChild)) :=
  ⟨rfl, c6_policy_splice_iff_soap_transport docSoap 0 [] fragUP bSoap rfl⟩

/-! ### Claim C3 -/

theorem mkDoc3_bindings (doc : Doc) (tg : Targets) (ko : List String)
    (names : List String) (seeds : List Key) :
    (mkDoc3 doc tg ko names seeds).bindings = doc.bindings := rfl

theorem mkDoc3_services (doc : Doc) (tg : Targets) (ko : List String)
    (names : List String) (seeds : List Key) :
    (mkDoc3 doc tg ko names seeds).services = doc.services := rfl

theorem mkDoc3_portTypes (doc : Doc) (tg : Targets) (ko : List String)
    (names : List String) (seeds : List Key) :
    (mkDoc3 doc tg ko names seeds).portTypes =
      setAt doc.portTypes tg.ptIdx (prunePorttypeOperations tg.pt ko) := rfl

theorem pruneUnusedPorttypes_bindings (doc : Doc) (i : Nat) :
    (pruneUnusedPorttypes doc i).bindings = doc.bindings := rfl

theorem pruneUnusedPorttypes_services (doc : Doc) (i : Nat) :
    (pruneUnusedPorttypes doc i).services = doc.services := rfl

theorem pruneUnusedPorttypes_messages (doc : Doc) (i : Nat) :
    (pruneUnusedPorttypes doc i).messages = doc.messages := rfl

/-- C3 (amended): after a successful run exactly one Binding and
exactly one Interface (portType) remain; in the target service at
least one port remains (the first port always survives) and the
surviving ports are exactly those whose binding reference carries the
surviving binding's local name — so several ports can survive when
several referenced that name, and ports of services other than the
target are not pruned at all. -/
theorem c3_single_target_reduction {doc : Doc} {sname : String}
    {ko : List String} {pol : Option PolicyDoc} {d : Doc}
    (h : pruneWsdl doc sname ko pol = (d, none)) :
    d.bindings.length = 1 ∧ d.portTypes.length = 1 ∧
      ∃ svcOut ∈ d.services, svcOut.name = some sname ∧ svcOut.ports ≠ [] ∧
        ∀ p ∈ svcOut.ports, ∃ bq bql, p.binding = some bq ∧
          splitQn bq = some bql ∧
          ∃ bOut ∈ d.bindings, bOut.name = some bql.2 := by
  obtain ⟨tg, names, seeds, doc4, doc5, hrt, hn, hs, hpb, hps, hd⟩ :=
    pruneWsdl_ok_elim h
  obtain ⟨hsi, hsv, hsvname, p0, ps, bq, bql, tq, tql, hports, hpb0, hsq,
    hbi, hbv, hbname, hbt, htq, hpi, hpv, hptname⟩ := resolveTargets_ok_elim hrt
  have hb3 : nth? (mkDoc3 doc tg ko names seeds).bindings tg.bIdx = some tg.bnd := by
    rw [mkDoc3_bindings]
    exact hbv
  obtain ⟨cs, hb4, hops, hns4, hsvc4, hpt4, hmsg4, hsch4⟩ :=
    pruneBindings_ok_elim hb3 hpb
  -- analyse the service-port stage
  unfold pruneServicePorts at hps
  have hsv4 : nth? doc4.services tg.sIdx = some tg.svc := by
    rw [hsvc4, mkDoc3_services]
    exact hsv
  simp only [hsv4] at hps
  cases haux : pruneServicePortsAux tg.bnd.name tg.svc.ports with
  | mk ports' e' =>
  simp only [haux, Prod.mk.injEq] at hps
  obtain ⟨hdoc5, he'⟩ := hps
  subst he'
  -- the first port survives
  obtain ⟨r, e0, hauxfirst, _⟩ :=
    @pruneServicePortsAux_first tg.bnd.name p0 ps bq bql hpb0 hsq hbname
  have haux2 : (p0 :: r, e0) = (ports', none) := by
    rw [← hauxfirst, ← hports]
    exact haux
  have hports' : ports' = p0 :: r := by
    have := congrArg Prod.fst haux2
    exact this.symm
  -- dimensions of the output
  have hd5bind : doc5.bindings = [{ tg.bnd with children := cs }] := by
    rw [← hdoc5]
    exact hb4
  have hdbind : d.bindings = [{ tg.bnd with children := cs }] := by
    rw [hd, pruneUnusedPorttypes_bindings]
    exact hd5bind
  refine ⟨by rw [hdbind]; rfl, ?_, ?_⟩
  · -- exactly one portType
    have hlt : tg.ptIdx < doc.portTypes.length := firstIdxWhere_lt_length hpi
    have hd5pt : doc5.portTypes =
        setAt doc.portTypes tg.ptIdx (prunePorttypeOperations tg.pt ko) := by
      rw [← hdoc5]
      show doc4.portTypes = _
      rw [hpt4, mkDoc3_portTypes]
    have hnth : nth? doc5.portTypes tg.ptIdx =
        some (prunePorttypeOperations tg.pt ko) := by
      rw [hd5pt]
      exact nth?_setAt_self hlt
    rw [hd]
    unfold pruneUnusedPorttypes
    simp only [hnth]
    rfl
  · -- the target service's surviving ports
    have hdserv : d.services = setAt doc4.services tg.sIdx
        { tg.svc with ports := ports' } := by
      rw [hd, pruneUnusedPorttypes_services, ← hdoc5]
    have hlt : tg.sIdx < doc4.services.length := by
      rw [hsvc4, mkDoc3_services]
      exact firstIdxWhere_lt_length hsi
    refine ⟨{ tg.svc with ports := ports' }, ?_, hsvname, ?_, ?_⟩
    · rw [hdserv]
      exact nth?_mem (nth?_setAt_self hlt)
    · show ports' ≠ []
      rw [hports']
      exact List.cons_ne_nil _ _
    · intro p hp
      have hpost := pruneServicePortsAux_ok_post haux p hp
      obtain ⟨bq', bql', hpb', hbq', hsq', ht'⟩ := hpost
      refine ⟨bq', bql', hpb', hsq', { tg.bnd with children := cs }, ?_, ?_⟩
      · rw [hdbind]
        exact List.mem_cons_self _ _
      · show tg.bnd.name = some bql'.2
        exact ht'.symm ▸ rfl

/-- Two ports of the target service referencing the same binding. -/
def docTwoPorts : Doc :=
  ⟨[("tns", "N")], [⟨some "S", [⟨some "tns:B"⟩, ⟨some "tns:B"⟩]⟩],
    [⟨some "B", some "tns:PT", []⟩], [⟨some "PT", []⟩], [], [], 0, 0⟩

/-- C3 counterexample: when two ports reference the target binding
name, both survive, so more than one Service Port remains in the
document — refuting "exactly one Service Port". -/
theorem c3_counterexample :
    (pruneWsdl docTwoPorts "S" [] none).2 = none ∧
      (concatMap Service.ports
        (pruneWsdl docTwoPorts "S" [] none).1.services).length = 2 := by
  decide

theorem c3_witness :
    pruneWsdl docSoap "S" [] none =
        ((pruneWsdl docSoap "S" [] none).1, none) ∧
      ((pruneWsdl docSoap "S" [] none).1.bindings.length = 1 ∧
        (pruneWsdl docSoap "S" [] none).1.portTypes.length = 1 ∧
        ∃ svcOut ∈ (pruneWsdl docSoap "S" [] none).1.services,
          svcOut.name = some "S" ∧ svcOut.ports ≠ [] ∧
          ∀ p ∈ svcOut.ports, ∃ bq bql, p.binding = some bq ∧
            splitQn bq = some bql ∧
            ∃ bOut ∈ (pruneWsdl docSoap "S" [] none).1.bindings,
              bOut.name = some bql.2) :=
  ⟨by decide, @c3_single_target_reduction docSoap "S" [] none
    (pruneWsdl docSoap "S" [] none).1 (by decide)⟩

/-! ### Shape of a successful run (shared by the remaining claims) -/

theorem run_shape {doc : Doc} {sname : String} {ko : List String}
    {pol : Option PolicyDoc} {d : Doc}
    (h : pruneWsdl doc sname ko pol = (d, none)) :
    ∃ tg names seeds cs ports',
      resolveTargets doc sname = .ok tg ∧
      findMessagesNames (collectMessagesFromPorttype
        (prunePorttypeOperations tg.pt ko)) = some names ∧
      collectSchemaQnamesFromMessages doc.nsmap
        (findMessages doc.messages names) = some seeds ∧
      pruneServicePortsAux tg.bnd.name tg.svc.ports = (ports', none) ∧
      d.bindings = [{ tg.bnd with children := cs }] ∧
      cs.filter isOperationChild =
        (pruneBindingOperations tg.bnd.children ko).filter isOperationChild ∧
      d.portTypes = [prunePorttypeOperations tg.pt ko] ∧
      d.services = setAt doc.services tg.sIdx { tg.svc with ports := ports' } ∧
      d.messages = findMessages doc.messages names ∧
      d.schemas = pruneSchemas (reachableKeepS doc.nsmap doc.schemas seeds)
        doc.schemas ∧
      d.nsmap = doc.nsmap := by
  obtain ⟨tg, names, seeds, doc4, doc5, hrt, hn, hs, hpb, hps, hd⟩ :=
    pruneWsdl_ok_elim h
  obtain ⟨hsi, hsv, hsvname, p0, ps, bq, bql, tq, tql, hports, hpb0, hsq,
    hbi, hbv, hbname, hbt, htq, hpi, hpv, hptname⟩ := resolveTargets_ok_elim hrt
  have hb3 : nth? (mkDoc3 doc tg ko names seeds).bindings tg.bIdx = some tg.bnd := by
    rw [mkDoc3_bindings]
    exact hbv
  obtain ⟨cs, hb4, hops, hns4, hsvc4, hpt4, hmsg4, hsch4⟩ :=
    pruneBindings_ok_elim hb3 hpb
  unfold pruneServicePorts at hps
  have hsv4 : nth? doc4.services tg.sIdx = some tg.svc := by
    rw [hsvc4, mkDoc3_services]
    exact hsv
  simp only [hsv4] at hps
  cases haux : pruneServicePortsAux tg.bnd.name tg.svc.ports with
  | mk ports' e' =>
  simp only [haux, Prod.mk.injEq] at hps
  obtain ⟨hdoc5, he'⟩ := hps
  subst he'
  refine ⟨tg, names, seeds, cs, ports', hrt, hn, ?_, haux, ?_, hops, ?_, ?_, ?_, ?_, ?_⟩
  · exact hs
  · rw [hd, pruneUnusedPorttypes_bindings, ← hdoc5]
    exact hb4
  · have hlt : tg.ptIdx < doc.portTypes.length := firstIdxWhere_lt_length hpi
    have hnth : nth? doc5.portTypes tg.ptIdx =
        some (prunePorttypeOperations tg.pt ko) := by
      rw [← hdoc5]
      show nth? doc4.portTypes tg.ptIdx = _
      rw [hpt4, mkDoc3_portTypes]
      exact nth?_setAt_self hlt
    rw [hd]
    unfold pruneUnusedPorttypes
    simp only [hnth]
  · rw [hd, pruneUnusedPorttypes_services, ← hdoc5]
    show setAt doc4.services tg.sIdx _ = _
    rw [hsvc4, mkDoc3_services]
  · rw [hd, pruneUnusedPorttypes_messages, ← hdoc5]
    show doc4.messages = _
    rw [hmsg4]
    show pruneMessagesList doc.messages (findMessages doc.messages names) = _
    exact pruneMessagesList_findMessages doc.messages names
  · rw [hd]
    show doc5.schemas = _
    rw [← hdoc5]
    show doc4.schemas = _
    rw [hsch4]
    rfl
  · rw [hd]
    show doc5.nsmap = _
    rw [← hdoc5]
    show doc4.nsmap = _
    rw [hns4]
    rfl

/-! ### Claim C9 -/

/-- The operation name carried by a binding child, when it is one. -/
def opNameOf : BChild → Option String
  | .operation o => o
  | _ => none

/-- Operation names declared by the operation children of a binding. -/
def bindingOpNames (cs : List BChild) : List String :=
  cs.filterMap opNameOf

/-- Operation names declared by a portType. -/
def portTypeOpNames (pt : PortType) : List String :=
  pt.ops.filterMap Operation.name

theorem filterMap_filter_superset {γ : Type _} {p : α → Bool}
    {f : α → Option γ} (hf : ∀ x, p x = false → f x = none) :
    ∀ l : List α, (l.filter p).filterMap f = l.filterMap f := by
  intro l
  induction l with
  | nil => rfl
  | cons x xs ih =>
    cases hp : p x with
    | true =>
      rw [List.filter_cons_of_pos (by rw [hp])]
      cases hfx : f x with
      | none =>
        rw [List.filterMap_cons_none hfx, List.filterMap_cons_none hfx]
        exact ih
      | some b =>
        rw [List.filterMap_cons_some hfx, List.filterMap_cons_some hfx, ih]
    | false =>
      rw [List.filter_cons_of_neg (by rw [hp]; simp),
        List.filterMap_cons_none (hf x hp)]
      exact ih

theorem bindingOpNames_filter_ops (l : List BChild) :
    bindingOpNames (l.filter isOperationChild) = bindingOpNames l := by
  unfold bindingOpNames
  apply filterMap_filter_superset
  intro c hc
  cases c <;> simp_all [isOperationChild, opNameOf]

theorem mem_bindingOpNames_prune {n : String} {ko : List String}
    {cs : List BChild} :
    n ∈ bindingOpNames (pruneBindingOperations cs ko) ↔
      (n ∈ bindingOpNames cs ∧ n ∈ ko) := by
  unfold bindingOpNames pruneBindingOperations
  rw [List.mem_filterMap, List.mem_filterMap]
  constructor
  · rintro ⟨c, hc, hfc⟩
    rw [List.mem_filter] at hc
    obtain ⟨hcl, hpc⟩ := hc
    cases c with
    | operation o =>
      cases o with
      | some m =>
        simp only [opNameOf] at hfc
        cases hfc
        simp only [decide_eq_true_eq] at hpc
        exact ⟨⟨.operation (some n), hcl, rfl⟩, hpc⟩
      | none => simp [opNameOf] at hfc
    | soapBinding => simp [opNameOf] at hfc
    | usingPolicy c => simp [opNameOf] at hfc
    | policy c => simp [opNameOf] at hfc
    | other c => simp [opNameOf] at hfc
  · rintro ⟨⟨c, hcl, hfc⟩, hko⟩
    refine ⟨c, List.mem_filter.mpr ⟨hcl, ?_⟩, hfc⟩
    cases c with
    | operation o =>
      cases o with
      | some m =>
        simp only [opNameOf] at hfc
        cases hfc
        simp only [decide_eq_true_eq]
        exact hko
      | none => simp [opNameOf] at hfc
    | soapBinding => simp [opNameOf] at hfc
    | usingPolicy c => simp [opNameOf] at hfc
    | policy c => simp [opNameOf] at hfc
    | other c => simp [opNameOf] at hfc

theorem mem_portTypeOpNames_prune {n : String} {ko : List String}
    {pt : PortType} :
    n ∈ portTypeOpNames (prunePorttypeOperations pt ko) ↔
      (n ∈ portTypeOpNames pt ∧ n ∈ ko) := by
  unfold portTypeOpNames prunePorttypeOperations
  rw [List.mem_filterMap, List.mem_filterMap]
  constructor
  · rintro ⟨op, hop, hfo⟩
    rw [List.mem_filter] at hop
    obtain ⟨hol, hpo⟩ := hop
    rw [hfo] at hpo
    simp only [decide_eq_true_eq] at hpo
    exact ⟨⟨op, hol, hfo⟩, hpo⟩
  · rintro ⟨⟨op, hol, hfo⟩, hko⟩
    refine ⟨op, List.mem_filter.mpr ⟨hol, ?_⟩, hfo⟩
    rw [hfo]
    simp only [decide_eq_true_eq]
    exact hko

/-- C9 (amended): if the input target binding and target portType
declare the same set of operation names (as well-formed WSDL does),
then after a successful run the surviving binding-operation name set is
identical to the surviving interface-operation name set (both are the
keep-set intersection).  Without that agreement hypothesis the claim
fails: the two containers are pruned independently by the same name
filter, so a binding operation with no portType counterpart survives
alone (see the counterexample). -/
theorem c9_binding_and_interface_ops_agree {doc : Doc} {sname : String}
    {ko : List String} {pol : Option PolicyDoc} {d : Doc} {tg : Targets}
    (h : pruneWsdl doc sname ko pol = (d, none))
    (hrt : resolveTargets doc sname = Except.ok tg)
    (hagree : ∀ m, m ∈ bindingOpNames tg.bnd.children ↔
      m ∈ portTypeOpNames tg.pt) :
    ∀ bOut ∈ d.bindings, ∀ ptOut ∈ d.portTypes, ∀ n,
      n ∈ bindingOpNames bOut.children ↔ n ∈ portTypeOpNames ptOut := by
  obtain ⟨tg', names, seeds, cs, ports', hrt', hn, hs, haux, hdbind, hops,
    hdpt, hdsvc, hdmsg, hdsch, hdns⟩ := run_shape h
  rw [hrt] at hrt'
  cases hrt'
  intro bOut hbOut ptOut hptOut n
  rw [hdbind] at hbOut
  rw [hdpt] at hptOut
  rw [List.mem_singleton] at hbOut hptOut
  subst hbOut
  subst hptOut
  have h1 : ∀ m, m ∈ bindingOpNames cs ↔
      m ∈ bindingOpNames (pruneBindingOperations tg.bnd.children ko) := by
    intro m
    rw [← bindingOpNames_filter_ops cs,
      ← bindingOpNames_filter_ops (pruneBindingOperations tg.bnd.children ko)]
    unfold bindingOpNames
    rw [hops]
  show n ∈ bindingOpNames cs ↔ _
  rw [h1, mem_bindingOpNames_prune, mem_portTypeOpNames_prune, hagree]

/-- A binding declaring operation `A` over a portType that declares no
operation at all. -/
def docMismatch : Doc :=
  ⟨[("tns", "N")], [⟨some "S", [⟨some "tns:B"⟩]⟩],
    [⟨some "B", some "tns:PT", [.operation (some "A")]⟩],
    [⟨some "PT", []⟩], [], [], 0, 0⟩

/-- C9 counterexample: keeping operation `A` on a document whose
binding declares `A` but whose portType does not, the run succeeds and
the surviving binding-operation name set is {A} while the surviving
interface-operation name set is empty. -/
theorem c9_counterexample :
    (pruneWsdl docMismatch "S" ["A"] none).2 = none ∧
      (∃ bOut ∈ (pruneWsdl docMismatch "S" ["A"] none).1.bindings,
        bindingOpNames bOut.children = ["A"]) ∧
      (∃ ptOut ∈ (pruneWsdl docMismatch "S" ["A"] none).1.portTypes,
        portTypeOpNames ptOut = []) := by
  decide

theorem c9_witness :
    pruneWsdl docSoap "S" [] none =
        ((pruneWsdl docSoap "S" [] none).1, none) ∧
      resolveTargets docSoap "S" =
        Except.ok ⟨0, ⟨some "S", [⟨some "tns:B"⟩]⟩, 0, bSoap, 0, ⟨some "PT", []⟩⟩ ∧
      ∀ bOut ∈ (pruneWsdl docSoap "S" [] none).1.bindings,
        ∀ ptOut ∈ (pruneWsdl docSoap "S" [] none).1.portTypes, ∀ n,
          n ∈ bindingOpNames bOut.children ↔ n ∈ portTypeOpNames ptOut :=
  ⟨by decide, rfl,
    @c9_binding_and_interface_ops_agree docSoap "S" [] none
      (pruneWsdl docSoap "S" [] none).1
      ⟨0, ⟨some "S", [⟨some "tns:B"⟩]⟩, 0, bSoap, 0, ⟨some "PT", []⟩⟩
      (by decide) rfl (fun m => Iff.rfl)⟩

/-! ### Claim C1 -/

/-- C1 (amended): after a successful run, (a) every `element`/`type`
reference of a Part of a surviving Message resolves to a key in the
retained key set computed by the run; (b) every message reference of a
surviving Interface Operation names only surviving Messages (no message
it names was deleted); (c) for every surviving Binding Operation name,
every input interface operation with that name survives in the output
Interface; and (d) every surviving port OF THE TARGET SERVICE
references the surviving Binding by local name.  The original claim's
unrestricted port clause is false: ports of services other than the
target are not pruned and may dangle on deleted bindings (see the
counterexample). -/
theorem c1_referential_closure {doc : Doc} {sname : String}
    {ko : List String} {pol : Option PolicyDoc} {d : Doc}
    (h : pruneWsdl doc sname ko pol = (d, none)) :
    ∃ tg names seeds,
      resolveTargets doc sname = Except.ok tg ∧
      findMessagesNames (collectMessagesFromPorttype
        (prunePorttypeOperations tg.pt ko)) = some names ∧
      collectSchemaQnamesFromMessages doc.nsmap
        (findMessages doc.messages names) = some seeds ∧
      (∀ m ∈ d.messages, ∀ s ∈ concatMap partRefs m.parts,
        ∃ pl, splitQn s = some pl ∧
          ((nsLookup doc.nsmap pl.1 : Option String), pl.2) ∈
            reachableKeepS doc.nsmap doc.schemas seeds) ∧
      (∀ ptOut ∈ d.portTypes, ∀ op ∈ ptOut.ops, ∀ q ∈ opMsgRefs op,
        ∃ ql, splitQn q = some ql ∧
          ∀ msg ∈ doc.messages, msg.name = some ql.2 → msg ∈ d.messages) ∧
      (∀ bOut ∈ d.bindings, ∀ n, BChild.operation (some n) ∈ bOut.children →
        ∀ op ∈ tg.pt.ops, op.name = some n →
          ∀ ptOut ∈ d.portTypes, op ∈ ptOut.ops) ∧
      (∃ svcOut ∈ d.services, svcOut.name = some sname ∧
        ∀ p ∈ svcOut.ports, ∃ bq bql, p.binding = some bq ∧
          splitQn bq = some bql ∧
          ∃ bOut ∈ d.bindings, bOut.name = some bql.2) := by
  obtain ⟨tg, names, seeds, cs, ports', hrt, hn, hs, haux, hdbind, hops,
    hdpt, hdsvc, hdmsg, hdsch, hdns⟩ := run_shape h
  obtain ⟨hsi, hsv, hsvname, p0, ps, bq, bql, tq, tql, hports, hpb0, hsq,
    hbi, hbv, hbname, hbt, htq, hpi, hpv, hptname⟩ := resolveTargets_ok_elim hrt
  refine ⟨tg, names, seeds, hrt, hn, hs, ?_, ?_, ?_, ?_⟩
  · -- (a) part references are retained
    intro m hm s hsm
    rw [hdmsg] at hm
    unfold collectSchemaQnamesFromMessages at hs
    have hbig : s ∈ concatMap (fun m => concatMap partRefs m.parts)
        (findMessages doc.messages names) :=
      mem_concatMap.mpr ⟨m, hm, hsm⟩
    obtain ⟨k, hk1, hk2⟩ := mem_mapOpt hs hbig
    rw [Option.map_eq_some'] at hk1
    obtain ⟨pl, hpl, hplk⟩ := hk1
    refine ⟨pl, hpl, ?_⟩
    rw [hplk]
    exact mem_reachableKeepS.mpr (ReachS.seed hk2)
  · -- (b) operation message references name surviving messages
    intro ptOut hptOut op hop q hq
    rw [hdpt, List.mem_singleton] at hptOut
    subst hptOut
    have hqmq : q ∈ collectMessagesFromPorttype
        (prunePorttypeOperations tg.pt ko) :=
      mem_concatMap.mpr ⟨op, hop, hq⟩
    unfold findMessagesNames at hn
    obtain ⟨y, hy1, hy2⟩ := mem_mapOpt hn hqmq
    rw [Option.map_eq_some'] at hy1
    obtain ⟨ql, hql, hqly⟩ := hy1
    refine ⟨ql, hql, ?_⟩
    intro msg hmsg hmname
    rw [hdmsg]
    unfold findMessages
    rw [List.mem_filter]
    refine ⟨hmsg, ?_⟩
    rw [hmname]
    simp only [decide_eq_true_eq]
    rw [hqly]
    exact hy2
  · -- (c) binding operations have surviving interface counterparts
    intro bOut hbOut n hn' op hop hopname ptOut hptOut
    rw [hdbind, List.mem_singleton] at hbOut
    subst hbOut
    rw [hdpt, List.mem_singleton] at hptOut
    subst hptOut
    have hnko : n ∈ ko := by
      have h1 : BChild.operation (some n) ∈ cs.filter isOperationChild :=
        List.mem_filter.mpr ⟨hn', rfl⟩
      rw [hops] at h1
      have h2 := (List.mem_filter.mp h1).1
      unfold pruneBindingOperations at h2
      have h3 := (List.mem_filter.mp h2).2
      simpa using h3
    unfold prunePorttypeOperations
    rw [List.mem_filter]
    refine ⟨hop, ?_⟩
    rw [hopname]
    simp only [decide_eq_true_eq]
    exact hnko
  · -- (d) target-service ports reference the surviving binding
    have hlt : tg.sIdx < doc.services.length := firstIdxWhere_lt_length hsi
    refine ⟨{ tg.svc with ports := ports' }, ?_, hsvname, ?_⟩
    · rw [hdsvc]
      exact nth?_mem (nth?_setAt_self hlt)
    · intro p hp
      obtain ⟨bq', bql', hpb', hbq', hsq', ht'⟩ :=
        pruneServicePortsAux_ok_post haux p hp
      refine ⟨bq', bql', hpb', hsq', { tg.bnd with children := cs }, ?_, ?_⟩
      · rw [hdbind]
        exact List.mem_cons_self _ _
      · show tg.bnd.name = some bql'.2
        exact ht'.symm ▸ rfl

/-- Two services; the run on `S` deletes binding `B2`, but the port of
service `S2` that references `B2` is not pruned. -/
def docTwoServices : Doc :=
  ⟨[("tns", "N")],
    [⟨some "S", [⟨some "tns:B"⟩]⟩, ⟨some "S2", [⟨some "tns:B2"⟩]⟩],
    [⟨some "B", some "tns:PT", []⟩, ⟨some "B2", some "tns:PT", []⟩],
    [⟨some "PT", []⟩], [], [], 0, 0⟩

/-- C1 counterexample: after a successful run on service `S`, binding
`B2` (present in the input) has been deleted, yet a surviving Port (in
service `S2`) still references it — a surviving Port references a
declaration the run deleted. -/
theorem c1_counterexample :
    (pruneWsdl docTwoServices "S" [] none).2 = none ∧
      (∃ b ∈ docTwoServices.bindings, b.name = some "B2") ∧
      (∀ b ∈ (pruneWsdl docTwoServices "S" [] none).1.bindings,
        ¬ b.name = some "B2") ∧
      (∃ svc ∈ (pruneWsdl docTwoServices "S" [] none).1.services,
        ∃ p ∈ svc.ports, p.binding = some "tns:B2") := by
  decide

/-- A complete small document: one kept operation, one message, a
schema element with a transitive type dependency. -/
def docFull : Doc :=
  { nsmap := [("tns", "N")]
    services := [⟨some "S", [⟨some "tns:B"⟩]⟩]
    bindings := [⟨some "B", some "tns:PT",
      [.soapBinding, .operation (some "Get"), .operation (some "List")]⟩]
    portTypes := [⟨some "PT",
      [⟨some "Get", some "tns:GetReq", none, []⟩,
       ⟨some "List", some "tns:ListReq", none, []⟩]⟩]
    messages := [⟨some "GetReq", [⟨some "tns:E", none⟩]⟩,
      ⟨some "ListReq", [⟨some "tns:F", none⟩]⟩]
    schemas := [⟨some "N", [⟨.el, some "E", ["tns:T"]⟩, ⟨.ct, some "T", []⟩,
      ⟨.el, some "F", []⟩], 2⟩]
    rootUP := 0
    rootPol := 0 }

theorem c1_witness :
    pruneWsdl docFull "S" ["Get"] none =
        ((pruneWsdl docFull "S" ["Get"] none).1, none) ∧
      (∃ tg names seeds,
        resolveTargets docFull "S" = Except.ok tg ∧
        findMessagesNames (collectMessagesFromPorttype
          (prunePorttypeOperations tg.pt ["Get"])) = some names ∧
        collectSchemaQnamesFromMessages docFull.nsmap
          (findMessages docFull.messages names) = some seeds ∧
        (∀ m ∈ (pruneWsdl docFull "S" ["Get"] none).1.messages,
          ∀ s ∈ concatMap partRefs m.parts,
          ∃ pl, splitQn s = some pl ∧
            ((nsLookup docFull.nsmap pl.1 : Option String), pl.2) ∈
              reachableKeepS docFull.nsmap docFull.schemas seeds) ∧
        (∀ ptOut ∈ (pruneWsdl docFull "S" ["Get"] none).1.portTypes,
          ∀ op ∈ ptOut.ops, ∀ q ∈ opMsgRefs op,
          ∃ ql, splitQn q = some ql ∧
            ∀ msg ∈ docFull.messages, msg.name = some ql.2 →
              msg ∈ (pruneWsdl docFull "S" ["Get"] none).1.messages) ∧
        (∀ bOut ∈ (pruneWsdl docFull "S" ["Get"] none).1.bindings,
          ∀ n, BChild.operation (some n) ∈ bOut.children →
          ∀ op ∈ tg.pt.ops, op.name = some n →
            ∀ ptOut ∈ (pruneWsdl docFull "S" ["Get"] none).1.portTypes,
              op ∈ ptOut.ops) ∧
        (∃ svcOut ∈ (pruneWsdl docFull "S" ["Get"] none).1.services,
          svcOut.name = some "S" ∧
          ∀ p ∈ svcOut.ports, ∃ bq bql, p.binding = some bq ∧
            splitQn bq = some bql ∧
            ∃ bOut ∈ (pruneWsdl docFull "S" ["Get"] none).1.bindings,
              bOut.name = some bql.2)) :=
  ⟨by decide, @c1_referential_closure docFull "S" ["Get"] none
    (pruneWsdl docFull "S" ["Get"] none).1 (by decide)⟩

/-! ### Claim C4: support lemmas -/

/-- Is this binding child the `soapbind:binding` marker? -/
def isSoapChild : BChild → Bool
  | .soapBinding => true
  | _ => false

theorem isSoap12Binding_eq_any (b : Binding) :
    isSoap12Binding b = b.children.any isSoapChild := by
  unfold isSoap12Binding isSoapChild
  rfl

theorem any_filter_keep {p q : α → Bool} (h : ∀ x, p x = true → q x = true) :
    ∀ l : List α, (l.filter q).any p = l.any p := by
  intro l
  induction l with
  | nil => rfl
  | cons x xs ih =>
    cases hq : q x with
    | true =>
      rw [List.filter_cons_of_pos (by rw [hq]), List.any_cons, List.any_cons, ih]
    | false =>
      have hp : p x = false := by
        cases hpx : p x with
        | false => rfl
        | true => rw [h x hpx] at hq; cases hq
      rw [List.filter_cons_of_neg (by rw [hq]; simp), List.any_cons, hp,
        Bool.false_or, ih]

theorem any_erasePFirst_disjoint {p q : α → Bool}
    (h : ∀ x, q x = true → p x = false) :
    ∀ l : List α, (erasePFirst q l).any p = l.any p := by
  intro l
  induction l with
  | nil => rfl
  | cons x xs ih =>
    unfold erasePFirst
    by_cases hq : q x
    · rw [if_pos hq, List.any_cons, h x hq, Bool.false_or]
    · rw [if_neg hq, List.any_cons, List.any_cons, ih]

theorem any_insertClamp_neg {p : α → Bool} {a : α} (ha : p a = false) :
    ∀ (i : Nat) (l : List α), (insertClamp i a l).any p = l.any p := by
  intro i l
  induction l generalizing i with
  | nil =>
    have hnil : insertClamp i a ([] : List α) = [a] := by
      cases i <;> rfl
    rw [hnil, List.any_cons, ha, Bool.false_or]
  | cons x xs ih =>
    cases i with
    | zero =>
      show (a :: x :: xs).any p = (x :: xs).any p
      rw [List.any_cons, ha, Bool.false_or]
    | succ n =>
      show (x :: insertClamp n a xs).any p = (x :: xs).any p
      rw [List.any_cons, List.any_cons, ih n]

theorem attach_any_soap (frag : PolicyDoc) (cs : List BChild) :
    ((attachPolicyToBinding frag cs).1).any isSoapChild =
      cs.any isSoapChild := by
  have hup : ∀ c, isUsingPolicyChild c = true → isSoapChild c = false := by
    intro c hc
    cases c <;> simp_all [isUsingPolicyChild, isSoapChild]
  have hpol : ∀ c, isPolicyChild c = true → isSoapChild c = false := by
    intro c hc
    cases c <;> simp_all [isPolicyChild, isSoapChild]
  unfold attachPolicyToBinding
  cases frag.ups with
  | nil => exact any_erasePFirst_disjoint hup cs
  | cons u us =>
    cases frag.pols with
    | nil =>
      simp only []
      rw [any_erasePFirst_disjoint hpol, any_insertClamp_neg rfl,
        any_erasePFirst_disjoint hup]
    | cons p ps =>
      simp only []
      rw [any_insertClamp_neg rfl, any_erasePFirst_disjoint hpol,
        any_insertClamp_neg rfl, any_erasePFirst_disjoint hup]

theorem pruneBindingOperations_idem (cs : List BChild) (ko : List String) :
    pruneBindingOperations (pruneBindingOperations cs ko) ko =
      pruneBindingOperations cs ko :=
  filter_idem _ _

theorem prunePorttypeOperations_idem (pt : PortType) (ko : List String) :
    prunePorttypeOperations (prunePorttypeOperations pt ko) ko =
      prunePorttypeOperations pt ko := by
  unfold prunePorttypeOperations
  rw [filter_idem]

theorem findMessages_idem (msgs : List Message) (names : List String) :
    findMessages (findMessages msgs names) names = findMessages msgs names :=
  filter_idem _ _

theorem myfilter_filter (p q : α → Bool) :
    ∀ l : List α, (l.filter p).filter q = l.filter (fun a => p a && q a) := by
  intro l
  induction l with
  | nil => rfl
  | cons x xs ih =>
    cases hp : p x with
    | false =>
      rw [List.filter_cons_of_neg (by rw [hp]; simp),
        List.filter_cons_of_neg (by rw [hp]; simp), ih]
    | true =>
      cases hq : q x with
      | false =>
        rw [List.filter_cons_of_pos (by rw [hp]),
          List.filter_cons_of_neg (by rw [hq]; simp),
          List.filter_cons_of_neg (by rw [hp, hq]; simp), ih]
      | true =>
        rw [List.filter_cons_of_pos (by rw [hp]),
          List.filter_cons_of_pos (by rw [hq]),
          List.filter_cons_of_pos (by rw [hp, hq]; simp), ih]

theorem filter_comm (p q : α → Bool) (l : List α) :
    (l.filter p).filter q = (l.filter q).filter p := by
  rw [myfilter_filter, myfilter_filter]
  apply filter_congr_mem
  intro x _
  exact Bool.and_comm _ _

theorem firstIdxWhere_setAt {p : α → Bool} :
    ∀ {l : List α} {i : Nat} {x y : α}, nth? l i = some x → p y = p x →
    firstIdxWhere p (setAt l i y) = firstIdxWhere p l := by
  intro l
  induction l with
  | nil => intro i x y h _; cases h
  | cons z zs ih =>
    intro i x y h hpy
    cases i with
    | zero =>
      cases h
      show firstIdxWhere p (y :: zs) = firstIdxWhere p (z :: zs)
      unfold firstIdxWhere
      rw [hpy]
    | succ n =>
      show firstIdxWhere p (z :: setAt zs n y) = firstIdxWhere p (z :: zs)
      unfold firstIdxWhere
      rw [ih h hpy]

theorem pruneServicePorts_bindings (doc : Doc) (i : Nat) (t : Option String) :
    ((pruneServicePorts doc i t).1).bindings = doc.bindings := by
  unfold pruneServicePorts
  cases nth? doc.services i with
  | none => rfl
  | some svc =>
    cases pruneServicePortsAux t svc.ports with
    | mk ps e => rfl

theorem keepItemPred_some {keep : List Key} {t : Option String}
    {n : SchemaNode} {nm : String} (h : n.name = some nm) :
    keepItemPred keep t n = decide (((t, nm) : Key) ∈ keep) := by
  unfold keepItemPred
  rw [h]

theorem filter_sel_keepItemPred (keep : List Key) (k : Key)
    (l : List SchemaNode) :
    (l.filter (fun n => decide (n.name = some k.2))).filter
        (keepItemPred keep k.1) =
      if k ∈ keep then l.filter (fun n => decide (n.name = some k.2))
      else [] := by
  by_cases hk : k ∈ keep
  · rw [if_pos hk]
    apply List.filter_eq_self.mpr
    intro n hn
    have hne := (List.mem_filter.mp hn).2
    simp only [decide_eq_true_eq] at hne
    rw [keepItemPred_some hne]
    have hmem : ((k.1, k.2) : Key) ∈ keep := hk
    exact decide_eq_true hmem
  · rw [if_neg hk]
    apply List.filter_eq_nil_iff.mpr
    intro n hn
    have hne := (List.mem_filter.mp hn).2
    simp only [decide_eq_true_eq] at hne
    rw [keepItemPred_some hne]
    intro hcon
    exact hk (of_decide_eq_true hcon)

theorem orderedItems_pruned (keep : List Key) (sch : Schema) :
    orderedItems ⟨sch.tns, sch.items.filter (keepItemPred keep sch.tns), 0⟩ =
      (orderedItems sch).filter (keepItemPred keep sch.tns) := by
  unfold orderedItems
  show (sch.items.filter (keepItemPred keep sch.tns)).filter _ ++
    (sch.items.filter (keepItemPred keep sch.tns)).filter _ ++
    (sch.items.filter (keepItemPred keep sch.tns)).filter _ = _
  rw [List.filter_append, List.filter_append]
  exact congrArg₂ HAppend.hAppend
    (congrArg₂ HAppend.hAppend (filter_comm _ _ _) (filter_comm _ _ _))
    (filter_comm _ _ _)

theorem byNameS_pruneSchemas (keep : List Key) (schemas : List Schema)
    (k : Key) :
    byNameS (pruneSchemas keep schemas) k =
      if k ∈ keep then byNameS schemas k else [] := by
  induction schemas with
  | nil =>
    by_cases hk : k ∈ keep <;>
      simp [byNameS, pruneSchemas, concatMap, hk]
  | cons sch schs ih =>
    show (if (⟨sch.tns, sch.items.filter (keepItemPred keep sch.tns), 0⟩ :
        Schema).tns = k.1 then
        (orderedItems ⟨sch.tns, sch.items.filter (keepItemPred keep sch.tns),
          0⟩).filter (fun n => decide (n.name = some k.2))
      else []) ++ byNameS (pruneSchemas keep schs) k = _
    rw [ih, orderedItems_pruned]
    by_cases hk : k ∈ keep
    · rw [if_pos hk, if_pos hk]
      show _ = (if sch.tns = k.1 then
          (orderedItems sch).filter (fun n => decide (n.name = some k.2))
        else []) ++ byNameS schs k
      by_cases ht : sch.tns = k.1
      · rw [if_pos ht, if_pos ht, filter_comm, ht,
          filter_sel_keepItemPred keep k (orderedItems sch), if_pos hk]
      · rw [if_neg ht, if_neg ht]
    · rw [if_neg hk, if_neg hk]
      by_cases ht : sch.tns = k.1
      · rw [if_pos ht, filter_comm, ht,
          filter_sel_keepItemPred keep k (orderedItems sch), if_neg hk]
        rfl
      · rw [if_neg ht]
        rfl

theorem succsS_pruneSchemas (nsmap : List (String × String))
    (keep : List Key) (schemas : List Schema) (k : Key) :
    succsS nsmap (pruneSchemas keep schemas) k =
      if k ∈ keep then succsS nsmap schemas k else [] := by
  unfold succsS
  rw [byNameS_pruneSchemas]
  by_cases hk : k ∈ keep
  · rw [if_pos hk, if_pos hk]
  · rw [if_neg hk, if_neg hk]
    rfl

theorem ReachS_pruneSchemas_iff (nsmap : List (String × String))
    (schemas : List Schema) (seeds : List Key) (k : Key) :
    ReachS nsmap (pruneSchemas (reachableKeepS nsmap schemas seeds) schemas)
        seeds k ↔
      ReachS nsmap schemas seeds k := by
  constructor
  · intro h
    induction h with
    | seed hs => exact ReachS.seed hs
    | step h1 h2 ih =>
      rename_i kk jj
      rw [succsS_pruneSchemas] at h2
      by_cases hk : kk ∈ reachableKeepS nsmap schemas seeds
      · rw [if_pos hk] at h2
        exact ReachS.step ih h2
      · rw [if_neg hk] at h2
        cases h2
  · intro h
    induction h with
    | seed hs => exact ReachS.seed hs
    | step h1 h2 ih =>
      refine ReachS.step ih ?_
      rw [succsS_pruneSchemas,
        if_pos (mem_reachableKeepS.mpr h1)]
      exact h2

theorem reachableKeep_pruned_stable (nsmap : List (String × String))
    (schemas : List Schema) (seeds : List Key) :
    ∀ j, j ∈ reachableKeepS nsmap
        (pruneSchemas (reachableKeepS nsmap schemas seeds) schemas) seeds ↔
      j ∈ reachableKeepS nsmap schemas seeds := by
  intro j
  rw [mem_reachableKeepS, mem_reachableKeepS]
  exact ReachS_pruneSchemas_iff nsmap schemas seeds j

theorem keepItemPred_congr {k1 k2 : List Key}
    (h : ∀ k, k ∈ k1 ↔ k ∈ k2) (t : Option String) (n : SchemaNode) :
    keepItemPred k1 t n = keepItemPred k2 t n := by
  unfold keepItemPred
  cases n.name with
  | none => rfl
  | some nm => exact decide_eq_decide.mpr (h _)

theorem map_congr_mem {γ : Type _} {f g : α → γ} :
    ∀ {l : List α}, (∀ x ∈ l, f x = g x) → l.map f = l.map g := by
  intro l
  induction l with
  | nil => intro _; rfl
  | cons x xs ih =>
    intro h
    show f x :: xs.map f = g x :: xs.map g
    rw [h x (List.mem_cons_self _ _), ih (fun y hy => h y (List.mem_cons_of_mem _ hy))]

theorem pruneSchemas_congr {k1 k2 : List Key}
    (h : ∀ k, k ∈ k1 ↔ k ∈ k2) (schemas : List Schema) :
    pruneSchemas k1 schemas = pruneSchemas k2 schemas := by
  unfold pruneSchemas
  apply map_congr_mem
  intro sch _
  have hitems : sch.items.filter (keepItemPred k1 sch.tns) =
      sch.items.filter (keepItemPred k2 sch.tns) :=
    filter_congr_mem (fun n _ => keepItemPred_congr h sch.tns n)
  show ({ tns := sch.tns, items := sch.items.filter (keepItemPred k1 sch.tns), imports := 0 } : Schema) = { tns := sch.tns, items := sch.items.filter (keepItemPred k2 sch.tns), imports := 0 }
  rw [hitems]

theorem pruneSchemas_idem (keep : List Key) (schemas : List Schema) :
    pruneSchemas keep (pruneSchemas keep schemas) =
      pruneSchemas keep schemas := by
  unfold pruneSchemas
  rw [List.map_map]
  apply map_congr_mem
  intro sch _
  show ({ tns := sch.tns, items := (sch.items.filter (keepItemPred keep sch.tns)).filter (keepItemPred keep sch.tns), imports := 0 } : Schema) = { tns := sch.tns, items := sch.items.filter (keepItemPred keep sch.tns), imports := 0 }
  rw [filter_idem]

theorem pruneMessagesList_self (msgs : List Message) :
    pruneMessagesList msgs msgs = msgs := by
  unfold pruneMessagesList
  apply List.filter_eq_self.mpr
  intro m hm
  simp only [decide_eq_true_eq]
  exact List.mem_map.mpr ⟨m, hm, rfl⟩

/-- When the run takes no policy splice (no fragment, or the surviving
binding is not of the targeted transport), `prune_bindings` only keeps
the target binding with its operations pruned. -/
theorem pruneBindings_noSplice {doc : Doc} {i : Nat} {ko : List String}
    {pol : Option PolicyDoc} {doc4 : Doc} {b : Binding}
    (hb : nth? doc.bindings i = some b)
    (h : pruneBindings doc i ko pol = (doc4, none))
    (hp : pol = none ∨ ∀ b' ∈ doc4.bindings, isSoap12Binding b' = false) :
    doc4 = { doc with bindings :=
      [{ b with children := pruneBindingOperations b.children ko }] } := by
  unfold pruneBindings at h
  simp only [hb] at h
  cases pol with
  | none =>
    simp only [Prod.mk.injEq] at h
    exact h.1.symm
  | some frag =>
    simp only [] at h
    by_cases hsoap : isSoap12Binding
        { b with children := pruneBindingOperations b.children ko } = true
    · rw [if_pos hsoap] at h
      cases hat : attachPolicyToBinding frag
          (pruneBindingOperations b.children ko) with
      | mk cs e =>
      cases e with
      | some e' =>
        simp only [hat, Prod.mk.injEq] at h
        exact absurd h.2 (Option.some_ne_none _)
      | none =>
        simp only [hat, Prod.mk.injEq] at h
        exfalso
        rcases hp with hpn | hps
        · cases hpn
        · have hbnd : doc4.bindings = [{ b with children := cs }] := by
            rw [← h.1]
          have hsoapcs : isSoap12Binding { b with children := cs } = true := by
            rw [isSoap12Binding_eq_any]
            show cs.any isSoapChild = true
            have hany := attach_any_soap frag (pruneBindingOperations b.children ko)
            rw [hat] at hany
            rw [show ((cs, (none : Option Err)).1).any isSoapChild =
              cs.any isSoapChild from rfl] at hany
            rw [hany]
            rw [isSoap12Binding_eq_any] at hsoap
            exact hsoap
          have hfalse := hps _ (by rw [hbnd]; exact List.mem_cons_self _ _)
          rw [hfalse] at hsoapcs
          cases hsoapcs
    · rw [if_neg hsoap] at h
      simp only [Prod.mk.injEq] at h
      exact h.1.symm

theorem run_shape_noSplice {doc : Doc} {sname : String} {ko : List String}
    {pol : Option PolicyDoc} {d : Doc}
    (h : pruneWsdl doc sname ko pol = (d, none))
    (hp : pol = none ∨ ∀ b ∈ d.bindings, isSoap12Binding b = false) :
    ∃ tg names seeds ports',
      resolveTargets doc sname = .ok tg ∧
      findMessagesNames (collectMessagesFromPorttype
        (prunePorttypeOperations tg.pt ko)) = some names ∧
      collectSchemaQnamesFromMessages doc.nsmap
        (findMessages doc.messages names) = some seeds ∧
      pruneServicePortsAux tg.bnd.name tg.svc.ports = (ports', none) ∧
      d.bindings = [{ tg.bnd with
        children := pruneBindingOperations tg.bnd.children ko }] ∧
      d.portTypes = [prunePorttypeOperations tg.pt ko] ∧
      d.services = setAt doc.services tg.sIdx { tg.svc with ports := ports' } ∧
      d.messages = findMessages doc.messages names ∧
      d.schemas = pruneSchemas (reachableKeepS doc.nsmap doc.schemas seeds)
        doc.schemas ∧
      d.nsmap = doc.nsmap := by
  obtain ⟨tg, names, seeds, doc4, doc5, hrt, hn, hs, hpb, hps, hd⟩ :=
    pruneWsdl_ok_elim h
  obtain ⟨hsi, hsv, hsvname, p0, ps, bq, bql, tq, tql, hports, hpb0, hsq,
    hbi, hbv, hbname, hbt, htq, hpi, hpv, hptname⟩ := resolveTargets_ok_elim hrt
  have hb3 : nth? (mkDoc3 doc tg ko names seeds).bindings tg.bIdx = some tg.bnd := by
    rw [mkDoc3_bindings]
    exact hbv
  have hdb45 : d.bindings = doc4.bindings := by
    rw [hd, pruneUnusedPorttypes_bindings]
    have h5 := pruneServicePorts_bindings doc4 tg.sIdx tg.bnd.name
    rw [hps] at h5
    exact h5
  have hp4 : pol = none ∨ ∀ b' ∈ doc4.bindings, isSoap12Binding b' = false := by
    rcases hp with h0 | h0
    · exact Or.inl h0
    · exact Or.inr (fun b' hb' => h0 b' (by rw [hdb45]; exact hb'))
  have hdoc4 := pruneBindings_noSplice hb3 hpb hp4
  unfold pruneServicePorts at hps
  have hsv4 : nth? doc4.services tg.sIdx = some tg.svc := by
    rw [hdoc4]
    show nth? (mkDoc3 doc tg ko names seeds).services tg.sIdx = _
    rw [mkDoc3_services]
    exact hsv
  simp only [hsv4] at hps
  cases haux : pruneServicePortsAux tg.bnd.name tg.svc.ports with
  | mk ports' e' =>
  simp only [haux, Prod.mk.injEq] at hps
  obtain ⟨hdoc5, he'⟩ := hps
  subst he'
  refine ⟨tg, names, seeds, ports', hrt, hn, ?_, haux, ?_, ?_, ?_, ?_, ?_, ?_⟩
  · exact hs
  · rw [hd, pruneUnusedPorttypes_bindings, ← hdoc5]
    show doc4.bindings = _
    rw [hdoc4]
  · have hlt : tg.ptIdx < doc.portTypes.length := firstIdxWhere_lt_length hpi
    have hnth : nth? doc5.portTypes tg.ptIdx =
        some (prunePorttypeOperations tg.pt ko) := by
      rw [← hdoc5]
      show nth? doc4.portTypes tg.ptIdx = _
      rw [hdoc4]
      show nth? (mkDoc3 doc tg ko names seeds).portTypes tg.ptIdx = _
      rw [mkDoc3_portTypes]
      exact nth?_setAt_self hlt
    rw [hd]
    unfold pruneUnusedPorttypes
    simp only [hnth]
  · rw [hd, pruneUnusedPorttypes_services, ← hdoc5]
    show setAt doc4.services tg.sIdx _ = _
    rw [hdoc4]
    show setAt (mkDoc3 doc tg ko names seeds).services tg.sIdx _ = _
    rw [mkDoc3_services]
  · rw [hd, pruneUnusedPorttypes_messages, ← hdoc5]
    show doc4.messages = _
    rw [hdoc4]
    show pruneMessagesList doc.messages (findMessages doc.messages names) = _
    exact pruneMessagesList_findMessages doc.messages names
  · rw [hd]
    show doc5.schemas = _
    rw [← hdoc5]
    show doc4.schemas = _
    rw [hdoc4]
    rfl
  · rw [hd]
    show doc5.nsmap = _
    rw [← hdoc5]
    show doc4.nsmap = _
    rw [hdoc4]
    rfl

/-- C4: running the full pipeline a second time on the output of a
successful first run, with the same configuration, is a no-op — PROVIDED
the first run performed no policy splice (no fragment was supplied, or the
surviving binding is not a SOAP-transport binding).  As stated (for every
configuration) the claim is false: the splice inserts UsingPolicy at
index 1 and Policy at index 2, so a second splice permutes the children
(see the counterexample). -/
theorem c4_idempotent_without_policy_splice {doc : Doc} {sname : String}
    {ko : List String} {pol : Option PolicyDoc} {d : Doc}
    (h : pruneWsdl doc sname ko pol = (d, none))
    (hp : pol = none ∨ ∀ b ∈ d.bindings, isSoap12Binding b = false) :
    pruneWsdl d sname ko pol = (d, none) := by
  obtain ⟨tg, names, seeds, ports', hrt, hn, hs, haux, hdbind, hdpt, hdsvc,
    hdmsg, hdsch, hdns⟩ := run_shape_noSplice h hp
  obtain ⟨hsi, hsv, hsvname, p0, ps, bq, bql, tq, tql, hports, hpb0, hsq,
    hbi, hbv, hbname, hbt, htq, hpi, hpv, hptname⟩ := resolveTargets_ok_elim hrt
  obtain ⟨r, e0, hauxfirst, hauxrest⟩ :=
    @pruneServicePortsAux_first tg.bnd.name p0 ps bq bql hpb0 hsq hbname
  have haux2 : ((p0 :: r, e0) : List Port × Option Err) = (ports', none) := by
    rw [← hauxfirst, ← hports]
    exact haux
  have hports' : ports' = p0 :: r := (congrArg Prod.fst haux2).symm
  have hslt : tg.sIdx < doc.services.length := firstIdxWhere_lt_length hsi
  have hpeq : (fun s : Service => decide (s.name = some sname))
      ({ tg.svc with ports := ports' } : Service) =
      (fun s : Service => decide (s.name = some sname)) tg.svc := rfl
  have hA1 : firstIdxWhere (fun s => decide (s.name = some sname)) d.services =
      some tg.sIdx := by
    rw [hdsvc, firstIdxWhere_setAt hsv hpeq]
    exact hsi
  have hA2 : nth? d.services tg.sIdx = some { tg.svc with ports := ports' } := by
    rw [hdsvc]
    exact nth?_setAt_self hslt
  have hbname2 : ({ tg.bnd with
      children := pruneBindingOperations tg.bnd.children ko } : Binding).name =
      some bql.2 := hbname
  have hA4 : firstIdxWhere (fun b => decide (b.name = some bql.2)) d.bindings =
      some 0 := by
    rw [hdbind]
    unfold firstIdxWhere
    rw [if_pos (decide_eq_true hbname2)]
  have hA5 : nth? d.bindings 0 = some
      { tg.bnd with children := pruneBindingOperations tg.bnd.children ko } := by
    rw [hdbind]
    rfl
  have hptname2 : (prunePorttypeOperations tg.pt ko).name = some tql.2 := hptname
  have hA7 : firstIdxWhere (fun pt => decide (pt.name = some tql.2)) d.portTypes =
      some 0 := by
    rw [hdpt]
    unfold firstIdxWhere
    rw [if_pos (decide_eq_true hptname2)]
  have hA8 : nth? d.portTypes 0 = some (prunePorttypeOperations tg.pt ko) := by
    rw [hdpt]
    rfl
  have hrt2 : resolveTargets d sname = Except.ok
      ⟨tg.sIdx, { tg.svc with ports := ports' }, 0,
        { tg.bnd with children := pruneBindingOperations tg.bnd.children ko },
        0, prunePorttypeOperations tg.pt ko⟩ := by
    unfold resolveTargets
    simp only [hA1, hA2, hports', hpb0, hsq, hA4, hA5, hbt, htq, hA7, hA8]
  have hmk1 : mkDoc1 d ⟨tg.sIdx, { tg.svc with ports := ports' }, 0,
      { tg.bnd with children := pruneBindingOperations tg.bnd.children ko },
      0, prunePorttypeOperations tg.pt ko⟩ ko = d := by
    show { d with portTypes := setAt d.portTypes 0 (prunePorttypeOperations (prunePorttypeOperations tg.pt ko) ko) } = d
    rw [prunePorttypeOperations_idem, hdpt]
    show { d with portTypes := [prunePorttypeOperations tg.pt ko] } = d
    rw [← hdpt]
  have hkeepMsgs2 : keepMsgsOf d ⟨tg.sIdx, { tg.svc with ports := ports' }, 0,
      { tg.bnd with children := pruneBindingOperations tg.bnd.children ko },
      0, prunePorttypeOperations tg.pt ko⟩ ko names = d.messages := by
    show findMessages (mkDoc1 d _ ko).messages names = d.messages
    rw [hmk1, hdmsg]
    exact findMessages_idem doc.messages names
  have hmk2 : mkDoc2 d ⟨tg.sIdx, { tg.svc with ports := ports' }, 0,
      { tg.bnd with children := pruneBindingOperations tg.bnd.children ko },
      0, prunePorttypeOperations tg.pt ko⟩ ko names = d := by
    unfold mkDoc2
    rw [hmk1, hkeepMsgs2, pruneMessagesList_self]
  have hkeep2 : ∀ j, j ∈ reachableKeepS d.nsmap d.schemas seeds ↔
      j ∈ reachableKeepS doc.nsmap doc.schemas seeds := by
    intro j
    rw [hdns, hdsch]
    exact reachableKeep_pruned_stable doc.nsmap doc.schemas seeds j
  have hsch2 : pruneSchemas (reachableKeepS d.nsmap d.schemas seeds)
      d.schemas = d.schemas := by
    rw [pruneSchemas_congr hkeep2 d.schemas, hdsch]
    exact pruneSchemas_idem _ doc.schemas
  have hmk3 : mkDoc3 d ⟨tg.sIdx, { tg.svc with ports := ports' }, 0,
      { tg.bnd with children := pruneBindingOperations tg.bnd.children ko },
      0, prunePorttypeOperations tg.pt ko⟩ ko names seeds = d := by
    unfold mkDoc3 keepKeysOf
    rw [hmk2, hsch2]
  have hb1eta : ({ { tg.bnd with children := pruneBindingOperations tg.bnd.children ko } with children := pruneBindingOperations ({ tg.bnd with children := pruneBindingOperations tg.bnd.children ko } : Binding).children ko } : Binding) = { tg.bnd with children := pruneBindingOperations tg.bnd.children ko } := by
    show ({ tg.bnd with children := pruneBindingOperations (pruneBindingOperations tg.bnd.children ko) ko } : Binding) = _
    rw [pruneBindingOperations_idem]
  have hpbd : pruneBindings d 0 ko pol = (d, none) := by
    unfold pruneBindings
    simp only [hA5]
    cases pol with
    | none =>
      simp only [hb1eta]
      rw [← hdbind]
    | some frag =>
      rcases hp with h0 | h0
      · cases h0
      · have hsoapb1 : isSoap12Binding
            { tg.bnd with children := pruneBindingOperations tg.bnd.children ko } =
            false := by
          apply h0
          rw [hdbind]
          exact List.mem_cons_self _ _
        have hnot : ¬(isSoap12Binding ({ tg.bnd with
            children := pruneBindingOperations tg.bnd.children ko } : Binding) =
            true) := by
          rw [hsoapb1]
          exact Bool.false_ne_true
        simp only [hb1eta]
        rw [if_neg hnot]
        rw [← hdbind]
  have hkeepall : pruneServicePortsAux tg.bnd.name ports' = (ports', none) := by
    apply pruneServicePortsAux_keep_all
    intro p hpmem
    exact pruneServicePortsAux_ok_post haux p hpmem
  have hpsd : pruneServicePorts d tg.sIdx tg.bnd.name = (d, none) := by
    unfold pruneServicePorts
    simp only [hA2, hkeepall]
    rw [setAt_self hA2]
  have hpu2 : pruneUnusedPorttypes d 0 = d := by
    unfold pruneUnusedPorttypes
    simp only [hA8]
    rw [← hdpt]
  have hn2 : findMessagesNames (collectMessagesFromPorttype
      (prunePorttypeOperations (prunePorttypeOperations tg.pt ko) ko)) =
      some names := by
    rw [prunePorttypeOperations_idem]
    exact hn
  have hs2 : collectSchemaQnamesFromMessages
      (mkDoc2 d ⟨tg.sIdx, { tg.svc with ports := ports' }, 0,
        { tg.bnd with children := pruneBindingOperations tg.bnd.children ko },
        0, prunePorttypeOperations tg.pt ko⟩ ko names).nsmap
      (keepMsgsOf d ⟨tg.sIdx, { tg.svc with ports := ports' }, 0,
        { tg.bnd with children := pruneBindingOperations tg.bnd.children ko },
        0, prunePorttypeOperations tg.pt ko⟩ ko names) = some seeds := by
    rw [hmk2, hkeepMsgs2, hdns, hdmsg]
    exact hs
  unfold pruneWsdl
  simp only [hrt2, hn2, hs2, hmk3, hpbd, hpsd, hpu2]

/-- A SOAP binding that already carries a root-level Policy child before
the `soapbind:binding` marker. -/
def bC4 : Binding := ⟨some "B", some "tns:PT", [.policy "old", .soapBinding]⟩

def docC4 : Doc :=
  ⟨[("tns", "N")], [⟨some "S", [⟨some "tns:B"⟩]⟩], [bC4],
    [⟨some "PT", []⟩], [], [], 0, 0⟩

/-- C4 counterexample: with a policy fragment and a SOAP binding the
pipeline output is NOT a fixed point — the first run leaves the binding
children as UsingPolicy, soapbind:binding, Policy, and the second run's
splice re-inserts them as soapbind:binding, UsingPolicy, Policy. -/
theorem c4_counterexample :
    (pruneWsdl docC4 "S" [] (some fragUP)).2 = none ∧
      (pruneWsdl (pruneWsdl docC4 "S" [] (some fragUP)).1 "S" []
        (some fragUP)).1 ≠ (pruneWsdl docC4 "S" [] (some fragUP)).1 := by
  decide

theorem c4_witness :
    pruneWsdl ((pruneWsdl docSoap "S" [] none).1) "S" [] none =
      ((pruneWsdl docSoap "S" [] none).1, none) := by
  have h : pruneWsdl docSoap "S" [] none =
      ((pruneWsdl docSoap "S" [] none).1, none) := by decide
  exact c4_idempotent_without_policy_splice h (Or.inl rfl)

end WdWsdlint
